import Mathlib

/-!
# A ray tracer with Phong shading: embedding and verified properties

The repository holds two near-duplicate programs:

* `EmptyViewer/Q2.cpp` — the plain variant (one sample per pixel, hand-written `Vec3`);
* `EmptyViewer3/Main_EmptyViewer.cpp` — the antialiased variant (64 jittered samples per
  pixel, `glm::vec3`).

`float` is modelled by `ℝ` (so `sqrt` is `Real.sqrt` and `pow` is `Real.rpow`), and the
`float` bound `tMax`, which the callers set to `+infinity`, by `EReal`.  An `intersect`
method, which reports through a `bool` and two out-parameters that its callers read only
after a `true`, is modelled as a function into `Option (ℝ × Vec3)`.  Where rounding decides
a property, `Plane::intersect` is also given as binary32 evaluates it (`fl32`).  The `int`
products of the resize path wrap modulo `2 ^ 32` (`wrapInt32`), and a call that throws is
`none`.
-/

noncomputable section

namespace RayTracer

/-! ## Vectors (`struct Vec3` of Q2.cpp, `glm::vec3` of Main_EmptyViewer.cpp) -/

/-- Three-component vector. -/
structure Vec3 where
  x : ℝ
  y : ℝ
  z : ℝ

namespace Vec3

/-- The `operator+` of `Vec3`. -/
def add (a v : Vec3) : Vec3 := ⟨a.x + v.x, a.y + v.y, a.z + v.z⟩

/-- The `operator-` of `Vec3` (binary). -/
def sub (a v : Vec3) : Vec3 := ⟨a.x - v.x, a.y - v.y, a.z - v.z⟩

/-- The `operator*` of `Vec3` by a scalar. -/
def scale (a : Vec3) (s : ℝ) : Vec3 := ⟨a.x * s, a.y * s, a.z * s⟩

/-- Unary minus of `glm::vec3`. -/
def neg (a : Vec3) : Vec3 := ⟨-a.x, -a.y, -a.z⟩

/-- Component-wise division by a scalar (`glm::vec3 / float`). -/
def divScalar (a : Vec3) (s : ℝ) : Vec3 := ⟨a.x / s, a.y / s, a.z / s⟩

/-- The `dot` product. -/
def dot (a v : Vec3) : ℝ := a.x * v.x + a.y * v.y + a.z * v.z

/-- The `normalize` method: every component divided by the Euclidean length. -/
def normalize (a : Vec3) : Vec3 :=
  let len := Real.sqrt (a.x * a.x + a.y * a.y + a.z * a.z)
  ⟨a.x / len, a.y / len, a.z / len⟩

/-- Euclidean length, the `|v|` of the specification. -/
def length (a : Vec3) : ℝ := Real.sqrt (a.x * a.x + a.y * a.y + a.z * a.z)

/-- Component-wise order on vectors, the `<=` of the specification on colours. -/
def le (a v : Vec3) : Prop := a.x ≤ v.x ∧ a.y ≤ v.y ∧ a.z ≤ v.z

/-- The `glm::reflect(I, N) = I - 2 * dot(N, I) * N`. -/
def reflect (i n : Vec3) : Vec3 := sub i (scale n (2 * dot n i))

end Vec3

/-! ## Rays, materials and surfaces -/

/-- A ray; `Ray.new` is the C++ constructor. -/
structure Ray where
  point : Vec3
  direction : Vec3

/-- The constructor `Ray(p, d)`, which stores `d` normalised. -/
def Ray.new (p d : Vec3) : Ray := ⟨p, d.normalize⟩

/-- Phong coefficients of a surface. -/
structure Material where
  ka : Vec3
  kd : Vec3
  ks : Vec3
  specularPower : ℝ

/-- The horizontal plane of height `y`. -/
structure Plane where
  material : Material
  y : ℝ

/-- A sphere. -/
structure Sphere where
  material : Material
  center : Vec3
  radius : ℝ

/-- The method `Plane::intersect` (the same text in both programs). -/
def Plane.intersect (self : Plane) (ray : Ray) : Option (ℝ × Vec3) :=
  if ray.direction.y = 0 then none
  else
    let t := (self.y - ray.point.y) / ray.direction.y
    if t > 0 then some (t, ⟨0, 1, 0⟩) else none

/-- The method `Sphere::intersect` (the same text in both programs). -/
def Sphere.intersect (self : Sphere) (ray : Ray) : Option (ℝ × Vec3) :=
  let oc := ray.point.sub self.center
  let a := ray.direction.dot ray.direction
  let b := 2 * oc.dot ray.direction
  let c := oc.dot oc - self.radius * self.radius
  let discriminant := b * b - 4 * a * c
  if discriminant < 0 then none
  else
    let t := (-b - Real.sqrt discriminant) / (2 * a)
    if t > 0 then
      let hitPoint := ray.point.add (ray.direction.scale t)
      some (t, (hitPoint.sub self.center).normalize)
    else none

/-- The class `Surface` with its two subclasses. -/
inductive Surface where
  | plane (p : Plane)
  | sphere (s : Sphere)

/-- The member `material` of a `Surface`. -/
def Surface.material : Surface → Material
  | .plane p => p.material
  | .sphere s => s.material

/-- Virtual dispatch of `intersect`. -/
def Surface.intersect : Surface → Ray → Option (ℝ × Vec3)
  | .plane p, ray => p.intersect ray
  | .sphere s, ray => s.intersect ray

/-! ## `Plane::intersect` with its division made visible, and in binary32 -/

/-- The two programs of the repository. -/
inductive Variant where
  | plain
  | antialiased

namespace Q2

/-- The function `phongShading` of Q2.cpp. -/
def phongShading (point normal : Vec3) (material : Material) (lightPos viewPos : Vec3) : Vec3 :=
  let lightDir := (lightPos.sub point).normalize
  let viewDir := (viewPos.sub point).normalize
  let reflectDir := (lightDir.sub (normal.scale (2 * normal.dot lightDir))).normalize
  let ambient := material.ka
  let diff := max (normal.dot lightDir) 0
  let diffuse := material.kd.scale diff
  let spec := (max (-(viewDir.dot reflectDir)) 0) ^ material.specularPower
  let specular := material.ks.scale spec
  (ambient.add diffuse).add specular

end Q2

namespace AA

/-- The function `phongShading` of Main_EmptyViewer.cpp. -/
def phongShading (point normal : Vec3) (material : Material) (lightPos viewPos : Vec3) : Vec3 :=
  let lightDir := (lightPos.sub point).normalize
  let viewDir := (viewPos.sub point).normalize
  let reflectDir := (Vec3.reflect lightDir.neg normal).normalize
  let ambient := material.ka
  let diff := max (normal.dot lightDir) 0
  let diffuse := material.kd.scale diff
  let spec := (max (viewDir.dot reflectDir) 0) ^ material.specularPower
  let specular := material.ks.scale spec
  (ambient.add diffuse).add specular

end AA

/-- The `phongShading` that the `Scene::trace` of each program calls. -/
def phongShading : Variant → Vec3 → Vec3 → Material → Vec3 → Vec3 → Vec3
  | .plain => Q2.phongShading
  | .antialiased => AA.phongShading

/-! ## The scene and `Scene::trace` -/

/-- The class `Scene`; `lightPos` is `(-4, 4, -3)` in both programs. -/
structure Scene where
  surfaces : List Surface
  lightPos : Vec3 := ⟨-4, 4, -3⟩

/-- The locals `closestSurface`, `closestT`, `normal` of `Scene::trace`. -/
structure Closest where
  closestSurface : Option Surface
  closestT : EReal
  normal : Vec3

/-- One iteration of the first loop of `Scene::trace`. -/
def closestStep (ray : Ray) (st : Closest) (obj : Surface) : Closest :=
  match obj.intersect ray with
  | some (t, tempNormal) =>
    if (t : EReal) < st.closestT then ⟨some obj, (t : EReal), tempNormal⟩ else st
  | none => st

/-- The first loop of `Scene::trace`: the scan for the nearest surface. -/
def Scene.closest (self : Scene) (ray : Ray) (tMax : EReal) : Closest :=
  self.surfaces.foldl (closestStep ray) ⟨none, tMax, ⟨0, 0, 0⟩⟩

/-- The second loop of `Scene::trace`: whether any surface meets the shadow ray. -/
def Scene.inShadow (self : Scene) (shadowRay : Ray) : Bool :=
  self.surfaces.any (fun obj => (obj.intersect shadowRay).isSome)

/-- The gamma step of `Scene::trace`. -/
def gammaCorrect (color : Vec3) : Vec3 :=
  ⟨color.x ^ ((1 : ℝ) / 2.2), color.y ^ ((1 : ℝ) / 2.2), color.z ^ ((1 : ℝ) / 2.2)⟩

/-- The body of the `if (closestSurface)` block of `Scene::trace`: the colour given to a ray
whose nearest surface is `closestSurface`, met at parameter `closestT` with normal `normal`. -/
def Scene.shade (v : Variant) (self : Scene) (ray : Ray) (closestSurface : Surface)
    (closestT : ℝ) (normal : Vec3) : Vec3 :=
  let hitPoint := ray.point.add (ray.direction.scale closestT)
  let lightDir := (self.lightPos.sub hitPoint).normalize
  let shadowRay := Ray.new (hitPoint.add (normal.scale 0.001)) lightDir
  let color :=
    if self.inShadow shadowRay then closestSurface.material.ka
    else phongShading v hitPoint normal closestSurface.material self.lightPos ray.point
  gammaCorrect color

/-- The method `Scene::trace`: the returned pair is the `bool` result and the value of the
out-parameter `color` on return, `color` being its value on entry.  The parameter `tMin` is
not read by the body, as in the source. -/
def Scene.trace (v : Variant) (self : Scene) (ray : Ray) (tMin tMax : EReal) (color : Vec3) :
    Bool × Vec3 :=
  let st := self.closest ray tMax
  match st.closestSurface with
  | some closestSurface =>
    (true, self.shade v ray closestSurface st.closestT.toReal st.normal)
  | none => (false, color)

/-! ## The camera -/

/-- The class `Camera`. -/
structure Camera where
  eye : Vec3
  u : Vec3
  v : Vec3
  w : Vec3
  l : ℝ
  r : ℝ
  b : ℝ
  t : ℝ
  d : ℝ
  nx : ℤ
  ny : ℤ

/-- The local `u_` of `Camera::getRay` at horizontal coordinate `i` (both programs). -/
def Camera.u_ (self : Camera) (i : ℝ) : ℝ := self.l + (self.r - self.l) * (i + 0.5) / self.nx

/-- The local `v_` of `Camera::getRay` at vertical coordinate `j` (both programs). -/
def Camera.v_ (self : Camera) (j : ℝ) : ℝ := self.b + (self.t - self.b) * (j + 0.5) / self.ny

namespace Q2

/-- The seven-argument constructor of `Camera` in Q2.cpp: `eye` is default-constructed to
the origin and the basis takes its member initialisers. -/
def Camera.new (left right bottom top direction : ℝ) (width height : ℤ) : Camera :=
  { eye := ⟨0, 0, 0⟩, u := ⟨1, 0, 0⟩, v := ⟨0, 1, 0⟩, w := ⟨0, 0, 1⟩,
    l := left, r := right, b := bottom, t := top, d := direction, nx := width, ny := height }

/-- The method `Camera::getRay(int i, int j)` of Q2.cpp. -/
def getRay (self : Camera) (i j : ℤ) : Ray :=
  let u_ := self.u_ i
  let v_ := self.v_ j
  let direction :=
    (((self.eye.add (self.u.scale u_)).add (self.v.scale v_)).sub (self.w.scale self.d)).normalize
  Ray.new self.eye direction

end Q2

namespace AA

/-- The method `Camera::getRay(float i, float j)` of Main_EmptyViewer.cpp. -/
def getRay (self : Camera) (i j : ℝ) : Ray :=
  let u_ := self.u_ i
  let v_ := self.v_ j
  let dir :=
    (((self.eye.add (self.u.scale u_)).add (self.v.scale v_)).sub (self.w.scale self.d)).normalize
  Ray.new self.eye dir

end AA

/-! ## The renderers and the globals -/

/-- The scene that `render()` builds: three spheres and the ground plane, the same surfaces
in the same order in both programs. -/
def renderScene : Scene :=
  { surfaces :=
      [Surface.sphere ⟨⟨⟨0.2, 0, 0⟩, ⟨1, 0, 0⟩, ⟨0, 0, 0⟩, 0⟩, ⟨-4, 0, -7⟩, 1⟩,
       Surface.sphere ⟨⟨⟨0, 0.2, 0⟩, ⟨0, 0.5, 0⟩, ⟨0.5, 0.5, 0.5⟩, 32⟩, ⟨0, 0, -7⟩, 2⟩,
       Surface.sphere ⟨⟨⟨0, 0, 0.2⟩, ⟨0, 0, 1⟩, ⟨0, 0, 0⟩, 0⟩, ⟨4, 0, -7⟩, 1⟩,
       Surface.plane ⟨⟨⟨0.2, 0.2, 0.2⟩, ⟨1, 1, 1⟩, ⟨0, 0, 0⟩, 0⟩, -2⟩] }

/-- The global variables `Width`, `Height` and `OutputImage`. -/
structure Globals where
  Width : ℤ
  Height : ℤ
  OutputImage : List ℝ

/-- The globals as initialised at program start: `512`, `512` and an empty vector. -/
def Globals.initial : Globals := ⟨512, 512, []⟩

/-- The value that 32-bit `int` arithmetic leaves for the mathematical result `n`: it wraps
around modulo `2 ^ 32` into `[-2 ^ 31, 2 ^ 31)`. -/
def wrapInt32 (n : ℤ) : ℤ := (n + 2 ^ 31) % 2 ^ 32 - 2 ^ 31

/-- Whether `std::vector<float>` accepts the `int` `n` as a capacity in `reserve(n)` or as a
size in `resize(n)`.  The `int` is converted to `size_t`, which turns a negative `n` into a
value above `max_size()`, and a request above `max_size()` throws `std::length_error`.
`maxSize` is the library's `max_size()`. -/
def vectorAccepts (maxSize n : ℤ) : Bool := decide (0 ≤ n ∧ n ≤ maxSize)

/-- The assignment `v[i] = x` for an `int` index; outside the vector, where the source's
behaviour is undefined, the model leaves the vector as it is. -/
def vectorStore (v : List ℝ) (i : ℤ) (x : ℝ) : List ℝ :=
  if 0 ≤ i ∧ i < v.length then v.set i.toNat x else v

namespace Q2

/-- The body of the inner loop of `render()` in Q2.cpp: one ray through pixel `(x, y)`, and
three `push_back`s, of the traced colour on a hit and of zeros otherwise. -/
def renderPixel (camera : Camera) (scene : Scene) (OutputImage : List ℝ) (x y : ℤ) : List ℝ :=
  let ray := getRay camera x y
  let r := scene.trace Variant.plain ray ((0.001 : ℝ) : EReal) ⊤ ⟨0, 0, 0⟩
  if r.1 = true then ((OutputImage ++ [r.2.x]) ++ [r.2.y]) ++ [r.2.z]
  else ((OutputImage ++ [0]) ++ [0]) ++ [0]

/-- The function `render()` of Q2.cpp: the vector is cleared and filled row by row. -/
def render (g : Globals) : Globals :=
  let camera := Camera.new (-0.1) 0.1 (-0.1) 0.1 0.1 g.Width g.Height
  let scene := renderScene
  { g with
    OutputImage :=
      (List.range g.Height.toNat).foldl
        (fun out (y : ℕ) =>
          (List.range g.Width.toNat).foldl
            (fun out (x : ℕ) => renderPixel camera scene out (x : ℤ) (y : ℤ)) out)
        [] }

end Q2

namespace AA

/-- The constant `N`, the number of samples per pixel. -/
def N : ℕ := 64

/-- The seven-argument constructor of `Camera` in Main_EmptyViewer.cpp; `eye` is not in its
initialiser list, so it holds whatever the default constructor of `glm::vec3` leaves. -/
def Camera.new (eye : Vec3) (left right bottom top direction : ℝ) (width height : ℤ) : Camera :=
  { eye := eye, u := ⟨1, 0, 0⟩, v := ⟨0, 1, 0⟩, w := ⟨0, 0, 1⟩,
    l := left, r := right, b := bottom, t := top, d := direction, nx := width, ny := height }

/-- The first half of an iteration of the loop of `Antialiasing`, the two numbers drawn being
`offset`: the sample ray is built and traced, `sampleColor` starting as `(0, 0, 0)`. -/
def traceSample (x y : ℤ) (camera : Camera) (scene : Scene) (offset : ℝ × ℝ) : Bool × Vec3 :=
  let dx := offset.1
  let dy := offset.2
  let sampleX := (x : ℝ) + dx
  let sampleY := (y : ℝ) + dy
  let ray := getRay camera sampleX sampleY
  scene.trace Variant.antialiased ray ((0.001 : ℝ) : EReal) ⊤ ⟨0, 0, 0⟩

/-- One iteration of the loop of `Antialiasing`: the colour of a sample that hits is added
to `accumulatedColor`. -/
def sampleStep (x y : ℤ) (camera : Camera) (scene : Scene) (accumulatedColor : Vec3)
    (offset : ℝ × ℝ) : Vec3 :=
  let r := traceSample x y camera scene offset
  if r.1 = true then accumulatedColor.add r.2 else accumulatedColor

/-- The function `Antialiasing`; `offsets i` is the pair `(dx, dy)` drawn from the random
generator in iteration `i`. -/
def Antialiasing (x y : ℤ) (camera : Camera) (scene : Scene) (offsets : ℕ → ℝ × ℝ) : Vec3 :=
  let accumulatedColor :=
    (List.range N).foldl (fun acc i => sampleStep x y camera scene acc (offsets i)) ⟨0, 0, 0⟩
  accumulatedColor.divScalar (N : ℝ)

/-- The body of the inner loop of `render()` in Main_EmptyViewer.cpp; `index` is computed
in `int`. -/
def renderPixel (camera : Camera) (scene : Scene) (Width : ℤ) (offsets : ℤ → ℤ → ℕ → ℝ × ℝ)
    (OutputImage : List ℝ) (x y : ℤ) : List ℝ :=
  let finalColor := Antialiasing x y camera scene (offsets x y)
  let index := wrapInt32 (wrapInt32 (wrapInt32 (y * Width) + x) * 3)
  vectorStore
    (vectorStore (vectorStore OutputImage (wrapInt32 (index + 0)) finalColor.x)
      (wrapInt32 (index + 1)) finalColor.y)
    (wrapInt32 (index + 2)) finalColor.z

/-- The function `render()` of Main_EmptyViewer.cpp; `eye` is the camera's eye (see
`Camera.new`) and `offsets x y` the random offsets drawn while pixel `(x, y)` is sampled.
The vector is cleared, given `Width * Height * 3` zeros by `resize`, the product being
computed in `int`, and filled pixel by pixel; the result is `none` when `resize` throws. -/
def render (maxSize : ℤ) (eye : Vec3) (offsets : ℤ → ℤ → ℕ → ℝ × ℝ) (g : Globals) :
    Option Globals :=
  let camera := Camera.new eye (-0.1) 0.1 (-0.1) 0.1 0.1 g.Width g.Height
  let scene := renderScene
  if vectorAccepts maxSize (wrapInt32 (wrapInt32 (g.Width * g.Height) * 3)) = true then
    some { g with
      OutputImage :=
        (List.range g.Height.toNat).foldl
          (fun out (y : ℕ) =>
            (List.range g.Width.toNat).foldl
              (fun out (x : ℕ) =>
                renderPixel camera scene g.Width offsets out (x : ℤ) (y : ℤ)) out)
          (List.replicate (wrapInt32 (wrapInt32 (g.Width * g.Height) * 3)).toNat 0) }
  else none

end AA

/-! ## Sample objects, taken from the scene of `render()` where possible -/

/-- The middle sphere of `render()`: centre `(0, 0, -7)`, radius `2`. -/
def sampleSphere : Sphere :=
  ⟨⟨⟨0, 0.2, 0⟩, ⟨0, 0.5, 0⟩, ⟨0.5, 0.5, 0.5⟩, 32⟩, ⟨0, 0, -7⟩, 2⟩

/-- A plane just above the origin, `y = 0.0005`, with the material that `render()` gives
the ground plane. -/
def nearPlane : Plane := ⟨⟨⟨0.2, 0.2, 0.2⟩, ⟨1, 1, 1⟩, ⟨0, 0, 0⟩, 0⟩, 0.0005⟩

/-- The ground plane of `render()`, `y = -2`. -/
def groundPlane : Plane := ⟨⟨⟨0.2, 0.2, 0.2⟩, ⟨1, 1, 1⟩, ⟨0, 0, 0⟩, 0⟩, -2⟩

/-- A plane at the height of the ground plane with the material of the first sphere. -/
def redPlane : Plane := ⟨⟨⟨0.2, 0, 0⟩, ⟨1, 0, 0⟩, ⟨0, 0, 0⟩, 0⟩, -2⟩

/-- A plane at height `y = 10`, above the light of the scene. -/
def ceilingPlane : Plane := ⟨⟨⟨0.2, 0, 0⟩, ⟨1, 0, 0⟩, ⟨0, 0, 0⟩, 0⟩, 10⟩

/-- The ray from the origin straight down. -/
def rayDown : Ray := ⟨⟨0, 0, 0⟩, ⟨0, -1, 0⟩⟩

theorem Vec3.sumsq_nonneg (a : Vec3) : 0 ≤ a.x * a.x + a.y * a.y + a.z * a.z :=
  add_nonneg (add_nonneg (mul_self_nonneg _) (mul_self_nonneg _)) (mul_self_nonneg _)

theorem Vec3.normalize_eq_divScalar (a : Vec3) : a.normalize = a.divScalar a.length := rfl

theorem Vec3.length_nonneg (a : Vec3) : 0 ≤ a.length := Real.sqrt_nonneg _

theorem Vec3.length_eq_iff (a : Vec3) {r : ℝ} (hr : 0 < r) :
    a.length = r ↔ a.dot a = r * r := by
  unfold Vec3.length Vec3.dot
  rw [Real.sqrt_eq_iff_mul_self_eq_of_pos hr]
  exact eq_comm

theorem Vec3.length_mul_self (a : Vec3) : a.length * a.length = a.dot a := by
  unfold Vec3.length Vec3.dot
  exact Real.mul_self_sqrt a.sumsq_nonneg

theorem Vec3.length_divScalar (a : Vec3) {s : ℝ} (hs : 0 < s) :
    (a.divScalar s).length = a.length / s := by
  unfold Vec3.length Vec3.divScalar
  have h : a.x / s * (a.x / s) + a.y / s * (a.y / s) + a.z / s * (a.z / s)
      = (a.x * a.x + a.y * a.y + a.z * a.z) / (s * s) := by
    field_simp
  rw [h, Real.sqrt_div a.sumsq_nonneg, Real.sqrt_mul_self hs.le]

theorem Vec3.length_normalize (a : Vec3) (h : 0 < a.length) : a.normalize.length = 1 := by
  rw [Vec3.normalize_eq_divScalar, Vec3.length_divScalar a h, div_self h.ne.symm]

/-- The squared distance from the sphere's centre along a ray, as a quadratic in the
parameter. -/
theorem Vec3.dot_along (o d c : Vec3) (q : ℝ) :
    ((o.add (d.scale q)).sub c).dot ((o.add (d.scale q)).sub c)
      = d.dot d * q * q + 2 * (o.sub c).dot d * q + (o.sub c).dot (o.sub c) := by
  simp only [Vec3.dot, Vec3.add, Vec3.sub, Vec3.scale]
  ring

/-- The smaller root of `q² + b q + c`, when positive, is a root and the least root. -/
theorem near_root_spec {b c : ℝ} (hdisc : 0 ≤ b * b - 4 * c) :
    let t := (-b - Real.sqrt (b * b - 4 * c)) / 2
    t * t + b * t + c = 0 ∧ ∀ q : ℝ, q * q + b * q + c = 0 → t ≤ q := by
  intro t
  have hs := Real.mul_self_sqrt hdisc
  have hs0 := Real.sqrt_nonneg (b * b - 4 * c)
  refine ⟨?_, fun q hq => ?_⟩
  · show (-b - Real.sqrt (b * b - 4 * c)) / 2 * ((-b - Real.sqrt (b * b - 4 * c)) / 2)
      + b * ((-b - Real.sqrt (b * b - 4 * c)) / 2) + c = 0
    nlinarith
  · show (-b - Real.sqrt (b * b - 4 * c)) / 2 ≤ q
    by_contra hlt
    push_neg at hlt
    nlinarith

/-- With `c > 0`, a positive root forces a non-negative discriminant and a positive
smaller root. -/
theorem near_root_pos {b c q : ℝ} (hc : 0 < c) (hq : 0 < q) (hroot : q * q + b * q + c = 0) :
    0 ≤ b * b - 4 * c ∧ 0 < (-b - Real.sqrt (b * b - 4 * c)) / 2 := by
  have hdisc : 0 ≤ b * b - 4 * c := by nlinarith [sq_nonneg (2 * q + b)]
  have hs := Real.mul_self_sqrt hdisc
  have hs0 := Real.sqrt_nonneg (b * b - 4 * c)
  have hb : b < 0 := by
    by_contra hb
    push_neg at hb
    nlinarith [mul_nonneg hb hq.le, mul_pos hq hq]
  refine ⟨hdisc, ?_⟩
  have : Real.sqrt (b * b - 4 * c) < -b := by
    by_contra hge
    push_neg at hge
    nlinarith
  linarith

theorem Vec3.dot_self_of_length_eq_one {d : Vec3} (hd : d.length = 1) : d.dot d = 1 := by
  have h := (Vec3.length_eq_iff d one_pos).1 hd
  simpa using h

/-- A point of a unit-direction ray lies on the sphere exactly when its parameter is a root
of the quadratic that `Sphere::intersect` solves. -/
theorem on_sphere_iff (o d cen : Vec3) {r : ℝ} (hr : 0 < r) (hd : d.dot d = 1) (q : ℝ) :
    ((o.add (d.scale q)).sub cen).length = r ↔
      q * q + 2 * (o.sub cen).dot d * q + ((o.sub cen).dot (o.sub cen) - r * r) = 0 := by
  rw [Vec3.length_eq_iff _ hr, Vec3.dot_along, hd]
  constructor <;> intro h <;> linarith

/-- The method `Sphere::intersect` on a ray whose direction has `dot(d, d) = 1`. -/
theorem Sphere.intersect_of_unit (s : Sphere) (ray : Ray)
    (hd : ray.direction.dot ray.direction = 1) :
    s.intersect ray =
      if 2 * (ray.point.sub s.center).dot ray.direction
            * (2 * (ray.point.sub s.center).dot ray.direction)
          - 4 * ((ray.point.sub s.center).dot (ray.point.sub s.center)
            - s.radius * s.radius) < 0 then none
      else if (-(2 * (ray.point.sub s.center).dot ray.direction)
          - Real.sqrt (2 * (ray.point.sub s.center).dot ray.direction
            * (2 * (ray.point.sub s.center).dot ray.direction)
          - 4 * ((ray.point.sub s.center).dot (ray.point.sub s.center)
            - s.radius * s.radius))) / 2 > 0 then
        some ((-(2 * (ray.point.sub s.center).dot ray.direction)
          - Real.sqrt (2 * (ray.point.sub s.center).dot ray.direction
            * (2 * (ray.point.sub s.center).dot ray.direction)
          - 4 * ((ray.point.sub s.center).dot (ray.point.sub s.center)
            - s.radius * s.radius))) / 2,
          ((ray.point.add (ray.direction.scale
            ((-(2 * (ray.point.sub s.center).dot ray.direction)
          - Real.sqrt (2 * (ray.point.sub s.center).dot ray.direction
            * (2 * (ray.point.sub s.center).dot ray.direction)
          - 4 * ((ray.point.sub s.center).dot (ray.point.sub s.center)
            - s.radius * s.radius))) / 2))).sub s.center).normalize)
      else none := by
  simp only [Sphere.intersect, hd, mul_one]

@[ext]
theorem Vec3.ext {a v : Vec3} (hx : a.x = v.x) (hy : a.y = v.y) (hz : a.z = v.z) : a = v := by
  cases a
  cases v
  simp_all

theorem Vec3.length_sub_comm (a v : Vec3) : (a.sub v).length = (v.sub a).length := by
  unfold Vec3.length Vec3.sub
  congr 1
  ring

theorem Vec3.length_neg (a : Vec3) : a.neg.length = a.length := by
  unfold Vec3.length Vec3.neg
  congr 1
  ring

theorem Vec3.dot_self_normalize (a : Vec3) (h : 0 < a.length) :
    a.normalize.dot a.normalize = 1 :=
  Vec3.dot_self_of_length_eq_one (Vec3.length_normalize a h)

/-- Normalising a positive multiple of a unit vector gives the unit vector back. -/
theorem Vec3.normalize_scale_of_unit (a : Vec3) {r : ℝ} (ha : a.length = 1) (hr : 0 < r) :
    (a.scale r).length = r ∧ (a.scale r).normalize = a := by
  have hlen : (a.scale r).length = r := by
    rw [Vec3.length_eq_iff _ hr]
    have h1 := Vec3.dot_self_of_length_eq_one ha
    simp only [Vec3.dot, Vec3.scale] at h1 ⊢
    linear_combination (r * r) * h1
  refine ⟨hlen, ?_⟩
  rw [Vec3.normalize_eq_divScalar, hlen]
  ext <;> simp only [Vec3.divScalar, Vec3.scale] <;> field_simp

/-! ## The nearest-surface scan -/

/-- The scan never raises `closestT`. -/
theorem closestStep_le (ray : Ray) (st : Closest) (obj : Surface) :
    (closestStep ray st obj).closestT ≤ st.closestT := by
  unfold closestStep
  split
  · split
    · rename_i h
      exact h.le
    · exact le_rfl
  · exact le_rfl

/-- What the scan leaves behind, from any starting state: either nothing in the list hits
below the starting bound and the state is unchanged, or the state holds a surface of the
list, its hit distance and its normal, every earlier surface hits strictly farther and every
later surface hits at least as far. -/
theorem closest_foldl_spec (ray : Ray) (l : List Surface) (st : Closest) :
    ((∀ obj ∈ l, ∀ t n, obj.intersect ray = some (t, n) → ¬ ((t : EReal) < st.closestT)) ∧
      l.foldl (closestStep ray) st = st) ∨
    ∃ (S : Surface) (t : ℝ) (n : Vec3) (pre post : List Surface),
      l.foldl (closestStep ray) st = ⟨some S, (t : EReal), n⟩ ∧
      l = pre ++ S :: post ∧ S.intersect ray = some (t, n) ∧ (t : EReal) < st.closestT ∧
      (∀ x ∈ pre, ∀ t1 n1, x.intersect ray = some (t1, n1) → t < t1) ∧
      (∀ x ∈ post, ∀ t1 n1, x.intersect ray = some (t1, n1) → t ≤ t1) := by
  induction l generalizing st with
  | nil => exact Or.inl ⟨by simp, rfl⟩
  | cons a rest ih =>
    rw [List.foldl_cons]
    rcases ih (closestStep ray st a) with ⟨hno, heq⟩ | ⟨S, t, n, pre, post, heq, hl, hS, hlt, hpre, hpost⟩
    · -- nothing after `a` improves on the state reached at `a`
      cases ha : a.intersect ray with
      | none =>
        have hst : closestStep ray st a = st := by simp [closestStep, ha]
        rw [hst] at hno heq ⊢
        refine Or.inl ⟨?_, heq⟩
        intro obj hobj t n hhit
        rcases List.mem_cons.1 hobj with rfl | hmem
        · rw [ha] at hhit
          cases hhit
        · exact hno obj hmem t n hhit
      | some r =>
        obtain ⟨ta, na⟩ := r
        by_cases hlt : (ta : EReal) < st.closestT
        · have hst : closestStep ray st a = ⟨some a, (ta : EReal), na⟩ := by
            simp [closestStep, ha, hlt]
          rw [hst] at hno heq ⊢
          refine Or.inr ⟨a, ta, na, [], rest, heq, rfl, ha, hlt, by simp, ?_⟩
          intro x hx t1 n1 hhit
          have := hno x hx t1 n1 hhit
          simpa using this
        · have hst : closestStep ray st a = st := by simp [closestStep, ha, hlt]
          rw [hst] at hno heq ⊢
          refine Or.inl ⟨?_, heq⟩
          intro obj hobj t n hhit
          rcases List.mem_cons.1 hobj with rfl | hmem
          · rw [ha] at hhit
            cases hhit
            exact hlt
          · exact hno obj hmem t n hhit
    · -- a later surface `S` ends up in the state
      refine Or.inr ⟨S, t, n, a :: pre, post, heq, by rw [hl]; rfl, hS,
        lt_of_lt_of_le hlt (closestStep_le ray st a), ?_, hpost⟩
      intro x hx t1 n1 hhit
      rcases List.mem_cons.1 hx with rfl | hmem
      · by_cases hlt1 : (t1 : EReal) < st.closestT
        · have hst : closestStep ray st x = ⟨some x, (t1 : EReal), n1⟩ := by
            simp [closestStep, hhit, hlt1]
          rw [hst] at hlt
          exact EReal.coe_lt_coe_iff.1 hlt
        · have hst : closestStep ray st x = st := by simp [closestStep, hhit, hlt1]
          rw [hst] at hlt
          have : (t : EReal) < (t1 : EReal) := lt_of_lt_of_le hlt (not_lt.1 hlt1)
          exact_mod_cast this
      · exact hpre x hmem t1 n1 hhit

/-- The outcome of the first loop of `Scene::trace`, without the position in the list. -/
theorem Scene.closest_summary (sc : Scene) (ray : Ray) (tMax : EReal) :
    ((∀ obj ∈ sc.surfaces, ∀ t n, obj.intersect ray = some (t, n) → ¬ ((t : EReal) < tMax)) ∧
      sc.closest ray tMax = ⟨none, tMax, ⟨0, 0, 0⟩⟩) ∨
    ∃ (S : Surface) (t : ℝ) (n : Vec3),
      sc.closest ray tMax = ⟨some S, (t : EReal), n⟩ ∧ S ∈ sc.surfaces ∧
      S.intersect ray = some (t, n) ∧ (t : EReal) < tMax ∧
      ∀ x ∈ sc.surfaces, ∀ t1 n1, x.intersect ray = some (t1, n1) → t ≤ t1 := by
  rcases closest_foldl_spec ray sc.surfaces ⟨none, tMax, ⟨0, 0, 0⟩⟩ with
    h | ⟨S, t, n, pre, post, heq, hl, hS, hlt, hpre, hpost⟩
  · exact Or.inl h
  · refine Or.inr ⟨S, t, n, heq, by rw [hl]; simp, hS, hlt, ?_⟩
    intro x hx t1 n1 hhit
    rw [hl] at hx
    rcases List.mem_append.1 hx with hx | hx
    · exact (hpre x hx t1 n1 hhit).le
    · rcases List.mem_cons.1 hx with rfl | hx
      · rw [hS] at hhit
        cases hhit
        exact le_rfl
      · exact hpost x hx t1 n1 hhit

theorem Scene.trace_of_closest_none (v : Variant) (sc : Scene) (ray : Ray) (tMin tMax : EReal)
    (color : Vec3) (h : (sc.closest ray tMax).closestSurface = none) :
    sc.trace v ray tMin tMax color = (false, color) := by
  simp only [Scene.trace, h]

theorem Scene.trace_of_closest_some (v : Variant) (sc : Scene) (ray : Ray) (tMin tMax : EReal)
    (color : Vec3) {S : Surface} {t : ℝ} {n : Vec3}
    (h : sc.closest ray tMax = ⟨some S, (t : EReal), n⟩) :
    sc.trace v ray tMin tMax color = (true, sc.shade v ray S t n) := by
  simp only [Scene.trace, h, EReal.toReal_coe]

/-- Normalising twice is normalising once. -/
theorem Vec3.normalize_normalize (a : Vec3) : a.normalize.normalize = a.normalize := by
  rcases (Vec3.length_nonneg a).eq_or_lt with h | h
  · have hz : a.normalize = ⟨0, 0, 0⟩ := by
      rw [Vec3.normalize_eq_divScalar, ← h]
      simp [Vec3.divScalar]
    rw [hz]
    simp [Vec3.normalize]
  · have h1 := Vec3.length_normalize a h
    rw [Vec3.normalize_eq_divScalar a.normalize, h1]
    simp [Vec3.divScalar]

theorem Scene.inShadow_eq_true_iff (sc : Scene) (shadowRay : Ray) :
    sc.inShadow shadowRay = true ↔
      ∃ obj ∈ sc.surfaces, (obj.intersect shadowRay).isSome = true := by
  simp [Scene.inShadow, List.any_eq_true]

theorem Vec3.length_sub_pos {a v : Vec3} (h : a ≠ v) : 0 < (a.sub v).length := by
  rcases (Vec3.length_nonneg (a.sub v)).eq_or_lt with h0 | h0
  · exfalso
    have hz := Real.sqrt_eq_zero'.1 h0.symm
    simp only [Vec3.sub] at hz
    have h1 := mul_self_nonneg (a.x - v.x)
    have h2 := mul_self_nonneg (a.y - v.y)
    have h3 := mul_self_nonneg (a.z - v.z)
    have hx : a.x - v.x = 0 := mul_self_eq_zero.1 (by linarith)
    have hy : a.y - v.y = 0 := mul_self_eq_zero.1 (by linarith)
    have hz1 : a.z - v.z = 0 := mul_self_eq_zero.1 (by linarith)
    exact h (Vec3.ext (by linarith) (by linarith) (by linarith))
  · exact h0

theorem Vec3.normalize_neg (a : Vec3) : a.neg.normalize = a.normalize.neg := by
  rw [Vec3.normalize_eq_divScalar, Vec3.normalize_eq_divScalar, Vec3.length_neg]
  ext <;> simp only [Vec3.divScalar, Vec3.neg] <;> ring

theorem Vec3.dot_neg_right (a v : Vec3) : a.dot v.neg = -(a.dot v) := by
  simp only [Vec3.dot, Vec3.neg]
  ring

/-- The `glm::reflect` of the negated light direction is the negation of the vector that
Q2.cpp normalises into `reflectDir`. -/
theorem Vec3.reflect_neg (l n : Vec3) :
    Vec3.reflect l.neg n = (l.sub (n.scale (2 * n.dot l))).neg := by
  ext <;> simp only [Vec3.reflect, Vec3.sub, Vec3.scale, Vec3.neg, Vec3.dot] <;> ring

/-- Reflection about a unit normal preserves length. -/
theorem Vec3.length_reflect (i n : Vec3) (hn : n.length = 1) :
    (Vec3.reflect i n).length = i.length := by
  have h1 := Vec3.dot_self_of_length_eq_one hn
  simp only [Vec3.dot] at h1
  unfold Vec3.length
  congr 1
  simp only [Vec3.reflect, Vec3.sub, Vec3.scale, Vec3.dot]
  linear_combination (4 * (n.x * i.x + n.y * i.y + n.z * i.z) ^ 2) * h1

theorem Vec3.length_pos_of_ne_zero {a : Vec3} (h : a ≠ ⟨0, 0, 0⟩) : 0 < a.length := by
  have h1 := Vec3.length_sub_pos h
  have h2 : a.sub ⟨0, 0, 0⟩ = a := by ext <;> simp [Vec3.sub]
  rwa [h2] at h1

/-- The vector that `Camera::getRay` normalises, for a camera at the origin with the world
axes as basis. -/
theorem Camera.direction_of_axes (cam : Camera) (a c : ℝ) (heye : cam.eye = ⟨0, 0, 0⟩)
    (hu : cam.u = ⟨1, 0, 0⟩) (hv : cam.v = ⟨0, 1, 0⟩) (hw : cam.w = ⟨0, 0, 1⟩) :
    ((cam.eye.add (cam.u.scale a)).add (cam.v.scale c)).sub (cam.w.scale cam.d)
      = ⟨a, c, -cam.d⟩ := by
  rw [heye, hu, hv, hw]
  ext <;> simp [Vec3.add, Vec3.sub, Vec3.scale]

theorem Vec3.normalize_y_pos {a : Vec3} (h : 0 < a.y) : 0 < a.normalize.y := by
  have hne : a ≠ ⟨0, 0, 0⟩ := by
    intro h0
    rw [h0] at h
    exact lt_irrefl _ h
  exact div_pos h (Vec3.length_pos_of_ne_zero hne)

/-- A ray that starts below a plane and goes up is reported as a hit. -/
theorem Plane.intersect_isSome_of_below (p : Plane) (ray : Ray) (hd : 0 < ray.direction.y)
    (hy : ray.point.y < p.y) : (p.intersect ray).isSome = true := by
  have ht : (p.y - ray.point.y) / ray.direction.y > 0 := div_pos (sub_pos.2 hy) hd
  simp [Plane.intersect, hd.ne.symm, ht]

/-! ## Loops that append to a vector -/

/-- A loop that only appends does the same from any starting vector. -/
theorem foldl_append_from {α : Type} (g : ℕ → List α) (l : List ℕ) (out : List α) :
    l.foldl (fun out k => out ++ g k) out = out ++ l.foldl (fun out k => out ++ g k) [] := by
  induction l generalizing out with
  | nil => simp
  | cons a rest ih =>
    rw [List.foldl_cons, List.foldl_cons, ih (out ++ g a), ih ([] ++ g a)]
    simp

/-- A counting loop that appends `c` entries per iteration: the length of the result, and
where the entries of iteration `k` are. -/
theorem range_foldl_append_spec {α : Type} (g : ℕ → List α) (c : ℕ)
    (hc : ∀ k, (g k).length = c) (n : ℕ) :
    ((List.range n).foldl (fun out k => out ++ g k) []).length = c * n ∧
    ∀ k < n, ∀ j < c,
      ((List.range n).foldl (fun out k => out ++ g k) [])[c * k + j]? = (g k)[j]? := by
  induction n with
  | zero => simp
  | succ n ih =>
    obtain ⟨hlen, hget⟩ := ih
    rw [List.range_succ, List.foldl_append, List.foldl_cons, List.foldl_nil]
    refine ⟨by rw [List.length_append, hlen, hc, Nat.mul_succ], ?_⟩
    intro k hk j hj
    rcases Nat.lt_succ_iff_lt_or_eq.1 hk with hlt | rfl
    · have hidx : c * k + j < c * n := by
        calc c * k + j < c * k + c := by omega
          _ = c * (k + 1) := by rw [Nat.mul_succ]
          _ ≤ c * n := Nat.mul_le_mul_left c hlt
      rw [List.getElem?_append_left (by rw [hlen]; exact hidx)]
      exact hget k hlt j hj
    · rw [List.getElem?_append_right (by rw [hlen]; omega), hlen]
      congr 1
      omega

theorem Q2.renderPixel_eq_append (camera : Camera) (scene : Scene) (out : List ℝ) (x y : ℤ) :
    Q2.renderPixel camera scene out x y = out ++ Q2.renderPixel camera scene [] x y := by
  simp only [Q2.renderPixel]
  split <;> simp

theorem Q2.renderPixel_length (camera : Camera) (scene : Scene) (x y : ℤ) :
    (Q2.renderPixel camera scene [] x y).length = 3 := by
  simp only [Q2.renderPixel]
  split <;> simp

/-- The vector that `render()` of Q2.cpp leaves, as rows of pixels appended in order. -/
theorem Q2.render_outputImage (g : Globals) :
    (Q2.render g).OutputImage =
      (List.range g.Height.toNat).foldl
        (fun out (y : ℕ) => out ++ (List.range g.Width.toNat).foldl
          (fun out (x : ℕ) => out ++ Q2.renderPixel
            (Q2.Camera.new (-0.1) 0.1 (-0.1) 0.1 0.1 g.Width g.Height) renderScene []
              (x : ℤ) (y : ℤ)) [])
        [] := by
  unfold Q2.render
  simp only
  congr 1
  funext out y
  have h : (fun (out : List ℝ) (x : ℕ) => Q2.renderPixel
      (Q2.Camera.new (-0.1) 0.1 (-0.1) 0.1 0.1 g.Width g.Height) renderScene out (x : ℤ) (y : ℤ))
      = fun (out : List ℝ) (x : ℕ) => out ++ Q2.renderPixel
        (Q2.Camera.new (-0.1) 0.1 (-0.1) 0.1 0.1 g.Width g.Height) renderScene []
          (x : ℤ) (y : ℤ) := by
    funext out x
    exact Q2.renderPixel_eq_append _ _ _ _ _
  rw [h]
  exact foldl_append_from _ _ _

/-- The vector that `render()` of Q2.cpp leaves: its length, and where the three entries of
pixel `(x, y)` are. -/
theorem Q2.render_entries (g : Globals) (w h : ℕ) (hw : g.Width = w) (hh : g.Height = h) :
    (Q2.render g).OutputImage.length = 3 * w * h ∧
    ∀ x < w, ∀ y < h, ∀ j < 3,
      (Q2.render g).OutputImage[3 * w * y + (3 * x + j)]?
        = (Q2.renderPixel (Q2.Camera.new (-0.1) 0.1 (-0.1) 0.1 0.1 g.Width g.Height)
            renderScene [] (x : ℤ) (y : ℤ))[j]? := by
  rw [Q2.render_outputImage]
  have hwn : g.Width.toNat = w := by rw [hw]; exact Int.toNat_ofNat w
  have hhn : g.Height.toNat = h := by rw [hh]; exact Int.toNat_ofNat h
  rw [hwn, hhn]
  have hrow : ∀ y : ℕ, ((List.range w).foldl
      (fun out (x : ℕ) => out ++ Q2.renderPixel
        (Q2.Camera.new (-0.1) 0.1 (-0.1) 0.1 0.1 g.Width g.Height) renderScene []
          (x : ℤ) (y : ℤ)) []).length = 3 * w := fun y =>
    (range_foldl_append_spec _ 3 (fun k => Q2.renderPixel_length _ _ _ _) w).1
  obtain ⟨hlen, hget⟩ := range_foldl_append_spec _ (3 * w) hrow h
  refine ⟨hlen, ?_⟩
  intro x hx y hy j hj
  rw [hget y hy (3 * x + j) (by omega)]
  exact (range_foldl_append_spec _ 3 (fun k => Q2.renderPixel_length _ _ _ _) w).2 x hx j hj

/-- Over the reals the two `phongShading` functions are the same function: the vector that
Main_EmptyViewer.cpp normalises into `reflectDir` is the negation of the one of Q2.cpp, and
Q2.cpp negates the dot product instead. -/
theorem phongShading_Q2_eq_AA (point normal : Vec3) (material : Material)
    (lightPos viewPos : Vec3) :
    Q2.phongShading point normal material lightPos viewPos
      = AA.phongShading point normal material lightPos viewPos := by
  simp only [Q2.phongShading, AA.phongShading, Vec3.reflect_neg, Vec3.normalize_neg,
    Vec3.dot_neg_right]

/-- The value `0.5 ^ (1 / 2.2)` lies strictly between `0.7296` and `0.7298`. -/
theorem half_rpow_gamma_bounds :
    (0.7296 : ℝ) < (0.5 : ℝ) ^ ((1 : ℝ) / 2.2) ∧ (0.5 : ℝ) ^ ((1 : ℝ) / 2.2) < 0.7298 := by
  have h0 : (0 : ℝ) ≤ (0.5 : ℝ) ^ ((1 : ℝ) / 2.2) := Real.rpow_nonneg (by norm_num) _
  have h11 : ((0.5 : ℝ) ^ ((1 : ℝ) / 2.2)) ^ 11 = (0.5 : ℝ) ^ 5 := by
    rw [← Real.rpow_natCast, ← Real.rpow_mul (by norm_num)]
    have : (1 : ℝ) / 2.2 * ((11 : ℕ) : ℝ) = ((5 : ℕ) : ℝ) := by norm_num
    rw [this, Real.rpow_natCast]
  constructor
  · by_contra hle
    have := pow_le_pow_left₀ h0 (not_lt.1 hle) 11
    rw [h11] at this
    norm_num at this
  · by_contra hge
    have := pow_le_pow_left₀ (by norm_num : (0 : ℝ) ≤ 0.7298) (not_lt.1 hge) 11
    rw [h11] at this
    norm_num at this

theorem Vec3.dot_divScalar_right (a v : Vec3) (s : ℝ) :
    a.dot (v.divScalar s) = a.dot v / s := by
  simp only [Vec3.dot, Vec3.divScalar]
  ring

/-- The dot product of two unit vectors is at most `1`. -/
theorem Vec3.dot_le_one_of_unit {a v : Vec3} (ha : a.length = 1) (hv : v.length = 1) :
    a.dot v ≤ 1 := by
  have h1 := Vec3.dot_self_of_length_eq_one ha
  have h2 := Vec3.dot_self_of_length_eq_one hv
  simp only [Vec3.dot] at h1 h2 ⊢
  nlinarith [sq_nonneg (a.x - v.x), sq_nonneg (a.y - v.y), sq_nonneg (a.z - v.z)]

/-- The smaller root is not positive when `b >= 0`: `Sphere::intersect` fails on a
unit-direction ray that does not head towards the centre. -/
theorem Sphere.intersect_none_of_heading_away (s : Sphere) (ray : Ray)
    (hd : ray.direction.dot ray.direction = 1)
    (hb : 0 ≤ (ray.point.sub s.center).dot ray.direction) : s.intersect ray = none := by
  rw [Sphere.intersect_of_unit s ray hd]
  split
  · rfl
  · have hs0 := Real.sqrt_nonneg (2 * (ray.point.sub s.center).dot ray.direction
        * (2 * (ray.point.sub s.center).dot ray.direction)
        - 4 * ((ray.point.sub s.center).dot (ray.point.sub s.center)
          - s.radius * s.radius))
    rw [if_neg]
    intro h
    linarith

/-- A ray that starts above a plane and does not go down is not reported as a hit. -/
theorem Plane.intersect_none_of_above (p : Plane) (ray : Ray) (hd : 0 < ray.direction.y)
    (hy : p.y < ray.point.y) : p.intersect ray = none := by
  have ht : ¬ ((p.y - ray.point.y) / ray.direction.y > 0) :=
    not_lt.2 (div_nonpos_of_nonpos_of_nonneg (by linarith) hd.le)
  simp [Plane.intersect, hd.ne.symm, ht]

/-- The diffuse and specular factors of `phongShading` lie in `[0, 1]`, so each component of
the result lies between `ka` and `ka + kd + ks`. -/
theorem phong_component_bounds (ka : ℝ) {kd ks diff spec : ℝ} (hkd : 0 ≤ kd) (hks : 0 ≤ ks)
    (hd0 : 0 ≤ diff) (hd1 : diff ≤ 1) (hs0 : 0 ≤ spec) (hs1 : spec ≤ 1) :
    ka ≤ ka + kd * diff + ks * spec ∧ ka + kd * diff + ks * spec ≤ ka + kd + ks := by
  constructor
  · nlinarith [mul_nonneg hkd hd0, mul_nonneg hks hs0]
  · nlinarith [mul_le_mul_of_nonneg_left hd1 hkd, mul_le_mul_of_nonneg_left hs1 hks]

theorem Vec3.dot_divScalar_left (a v : Vec3) (s : ℝ) :
    (a.divScalar s).dot v = a.dot v / s := by
  simp only [Vec3.dot, Vec3.divScalar]
  ring

/-- The factors of `phongShading` at a unit normal and a point away from the light and the
viewer: the diffuse factor and the specular factor both lie in `[0, 1]`. -/
theorem phong_factor_bounds (point normal lightPos viewPos : Vec3) (sp : ℝ) (hsp : 0 ≤ sp)
    (hn : normal.length = 1) (hl : lightPos ≠ point) (hv : viewPos ≠ point) :
    0 ≤ max (normal.dot (lightPos.sub point).normalize) 0 ∧
    max (normal.dot (lightPos.sub point).normalize) 0 ≤ 1 ∧
    0 ≤ (max ((viewPos.sub point).normalize.dot
      (Vec3.reflect (lightPos.sub point).normalize.neg normal).normalize) 0) ^ sp ∧
    (max ((viewPos.sub point).normalize.dot
      (Vec3.reflect (lightPos.sub point).normalize.neg normal).normalize) 0) ^ sp ≤ 1 := by
  have hl1 := Vec3.length_normalize _ (Vec3.length_sub_pos hl)
  have hv1 := Vec3.length_normalize _ (Vec3.length_sub_pos hv)
  have hr1 : (Vec3.reflect (lightPos.sub point).normalize.neg normal).normalize.length
      = 1 := by
    apply Vec3.length_normalize
    rw [Vec3.length_reflect _ _ hn, Vec3.length_neg, hl1]
    exact one_pos
  have hbase0 : 0 ≤ max ((viewPos.sub point).normalize.dot
      (Vec3.reflect (lightPos.sub point).normalize.neg normal).normalize) 0 :=
    le_max_right _ _
  have hbase1 : max ((viewPos.sub point).normalize.dot
      (Vec3.reflect (lightPos.sub point).normalize.neg normal).normalize) 0 ≤ 1 :=
    max_le (Vec3.dot_le_one_of_unit hv1 hr1) zero_le_one
  exact ⟨le_max_right _ _, max_le (Vec3.dot_le_one_of_unit hn hl1) zero_le_one,
    Real.rpow_nonneg hbase0 _, Real.rpow_le_one hbase0 hbase1 hsp⟩

/-! ## Evaluating binary32 rounding -/

/-- C1: for a sphere of positive radius and a unit-direction ray that starts strictly
outside it, `Sphere::intersect` succeeds exactly when the ray meets the sphere at some
positive parameter; the `t` it then returns is positive, is the least parameter at which
the ray is on the sphere, the hit point is on the sphere, and the normal returned is
`(hitPoint - center) / radius`, a unit vector. -/
theorem sphere_intersect_nearest_positive (s : Sphere) (ray : Ray)
    (hr : 0 < s.radius) (hd : ray.direction.length = 1)
    (hout : s.radius < (ray.point.sub s.center).length) :
    ((s.intersect ray).isSome = true ↔
      ∃ q : ℝ, 0 < q ∧
        ((ray.point.add (ray.direction.scale q)).sub s.center).length = s.radius) ∧
    ∀ t normal, s.intersect ray = some (t, normal) →
      0 < t ∧
      ((ray.point.add (ray.direction.scale t)).sub s.center).length = s.radius ∧
      (∀ q : ℝ, 0 < q →
        ((ray.point.add (ray.direction.scale q)).sub s.center).length = s.radius → t ≤ q) ∧
      normal = ((ray.point.add (ray.direction.scale t)).sub s.center).divScalar s.radius ∧
      normal.length = 1 := by
  have hdd := Vec3.dot_self_of_length_eq_one hd
  have hc : 0 < (ray.point.sub s.center).dot (ray.point.sub s.center)
      - s.radius * s.radius := by
    have h1 := Vec3.length_mul_self (ray.point.sub s.center)
    nlinarith
  have hon := on_sphere_iff ray.point ray.direction s.center hr hdd
  rw [Sphere.intersect_of_unit s ray hdd]
  simp only [hon]
  generalize 2 * (ray.point.sub s.center).dot ray.direction = b at *
  generalize (ray.point.sub s.center).dot (ray.point.sub s.center)
    - s.radius * s.radius = c at *
  by_cases hdisc : b * b - 4 * c < 0
  · simp only [hdisc, if_true, Option.isSome_none, Bool.false_eq_true, false_iff,
      not_exists, not_and]
    refine ⟨fun q hq hroot => ?_, fun t normal h => by cases h⟩
    have := (near_root_pos hc hq hroot).1
    linarith
  · have hdisc0 : 0 ≤ b * b - 4 * c := not_lt.1 hdisc
    obtain ⟨hroot, hleast⟩ := near_root_spec hdisc0
    by_cases ht : (-b - Real.sqrt (b * b - 4 * c)) / 2 > 0
    · simp only [hdisc, ht, if_true, if_false, Option.isSome_some, true_iff,
        Option.some.injEq, Prod.mk.injEq]
      refine ⟨⟨_, ht, hroot⟩, ?_⟩
      rintro t normal ⟨rfl, rfl⟩
      have hlen := (hon _).2 hroot
      refine ⟨ht, hroot, fun q _ hq => hleast q hq, ?_, ?_⟩
      · rw [Vec3.normalize_eq_divScalar, hlen]
      · exact Vec3.length_normalize _ (hlen ▸ hr)
    · simp only [hdisc, ht, if_false, Option.isSome_none, Bool.false_eq_true, false_iff,
        not_exists, not_and]
      refine ⟨fun q hq hroot => ?_, fun t normal h => by cases h⟩
      exact ht (near_root_pos hc hq hroot).2

theorem sampleSphere_outside : sampleSphere.radius
    < (Vec3.sub ⟨0, 0, 0⟩ sampleSphere.center).length := by
  have h : (Vec3.sub ⟨0, 0, 0⟩ sampleSphere.center).length = 7 := by
    rw [Vec3.length_eq_iff _ (by norm_num)]
    norm_num [Vec3.dot, Vec3.sub, sampleSphere]
  rw [h]
  norm_num [sampleSphere]

/-- An instance of C1: the ray from the origin along `-z` starts outside the middle sphere of
the scene, and the call succeeds exactly when the ray meets the sphere ahead of its
origin. -/
theorem sphere_intersect_nearest_positive_witness :
    (0 : ℝ) < sampleSphere.radius ∧ (Vec3.mk 0 0 (-1)).length = 1 ∧
    sampleSphere.radius < (Vec3.sub ⟨0, 0, 0⟩ sampleSphere.center).length ∧
    ((sampleSphere.intersect ⟨⟨0, 0, 0⟩, ⟨0, 0, -1⟩⟩).isSome = true ↔
      ∃ q : ℝ, 0 < q ∧
        ((Vec3.add ⟨0, 0, 0⟩ (Vec3.scale ⟨0, 0, -1⟩ q)).sub sampleSphere.center).length
          = sampleSphere.radius) :=
  have h1 : (0 : ℝ) < sampleSphere.radius := by norm_num [sampleSphere]
  have h2 : (Vec3.mk 0 0 (-1)).length = 1 := by norm_num [Vec3.length]
  ⟨h1, h2, sampleSphere_outside,
    (sphere_intersect_nearest_positive sampleSphere ⟨⟨0, 0, 0⟩, ⟨0, 0, -1⟩⟩ h1 h2
      sampleSphere_outside).1⟩

/-- C2: a ray `Ray(o, c - o)` aimed at the centre `c` of a sphere of radius `r > 0` from a
point `o` with `|o - c| > r` is reported as a hit at `t = |o - c| - r`; the normal returned
has length `1`, is the negated ray direction, and is `(hitPoint - c) / r`, hence parallel
to `hitPoint - c`. -/
theorem sphere_intersect_aimed_at_center (s : Sphere) (o : Vec3) (hr : 0 < s.radius)
    (hout : s.radius < (o.sub s.center).length) :
    ∃ normal : Vec3,
      s.intersect (Ray.new o (s.center.sub o))
        = some ((o.sub s.center).length - s.radius, normal) ∧
      normal.length = 1 ∧
      normal = (Ray.new o (s.center.sub o)).direction.neg ∧
      normal = (((Ray.new o (s.center.sub o)).point.add
        ((Ray.new o (s.center.sub o)).direction.scale
          ((o.sub s.center).length - s.radius))).sub s.center).divScalar s.radius := by
  have hL : 0 < (o.sub s.center).length := lt_trans hr hout
  have hL' : 0 < (s.center.sub o).length := by rwa [Vec3.length_sub_comm]
  have hdd : (Ray.new o (s.center.sub o)).direction.dot
      (Ray.new o (s.center.sub o)).direction = 1 := Vec3.dot_self_normalize _ hL'
  have hdir : (Ray.new o (s.center.sub o)).direction
      = (s.center.sub o).divScalar (o.sub s.center).length := by
    show (s.center.sub o).normalize = _
    rw [Vec3.normalize_eq_divScalar, Vec3.length_sub_comm]
  have hsq := Vec3.length_mul_self (o.sub s.center)
  have hb : (o.sub s.center).dot (Ray.new o (s.center.sub o)).direction
      = -(o.sub s.center).length := by
    rw [hdir]
    have : (o.sub s.center).dot ((s.center.sub o).divScalar (o.sub s.center).length)
        = -((o.sub s.center).dot (o.sub s.center)) / (o.sub s.center).length := by
      simp only [Vec3.dot, Vec3.sub, Vec3.divScalar]
      field_simp
      ring
    rw [this, ← hsq]
    field_simp
  have hunit : (Ray.new o (s.center.sub o)).direction.neg.length = 1 := by
    rw [Vec3.length_neg]
    exact Vec3.length_normalize _ hL'
  have hvec : ((Ray.new o (s.center.sub o)).point.add
        ((Ray.new o (s.center.sub o)).direction.scale
          ((o.sub s.center).length - s.radius))).sub s.center
      = (Ray.new o (s.center.sub o)).direction.neg.scale s.radius := by
    rw [hdir]
    have hL0 := hL.ne.symm
    generalize (o.sub s.center).length = L at hL0
    ext <;> simp only [Vec3.add, Vec3.sub, Vec3.scale, Vec3.neg, Vec3.divScalar, Ray.new] <;>
      field_simp <;> ring
  obtain ⟨hlen, hnorm⟩ := Vec3.normalize_scale_of_unit _ hunit hr
  have hdisc : 2 * -(o.sub s.center).length * (2 * -(o.sub s.center).length)
      - 4 * ((o.sub s.center).length * (o.sub s.center).length - s.radius * s.radius)
      = (2 * s.radius) * (2 * s.radius) := by ring
  have ht : (-(2 * -(o.sub s.center).length) - 2 * s.radius) / 2
      = (o.sub s.center).length - s.radius := by ring
  have hp : (Ray.new o (s.center.sub o)).point = o := rfl
  rw [hp] at hvec ⊢
  refine ⟨(Ray.new o (s.center.sub o)).direction.neg, ?_, hunit, rfl, ?_⟩
  · rw [Sphere.intersect_of_unit s _ hdd, hp, hb, ← hsq, hdisc,
      Real.sqrt_mul_self (by linarith), ht]
    have h1 : ¬ ((2 * s.radius) * (2 * s.radius) < 0) := not_lt.2 (by positivity)
    have h2 : (o.sub s.center).length - s.radius > 0 := by linarith
    rw [if_neg h1, if_pos h2, hvec, hnorm]
  · rw [hvec]
    ext <;> simp only [Vec3.divScalar, Vec3.scale] <;> field_simp

/-- An instance of C2: the ray from the origin aimed at the centre of the middle sphere of
the scene. -/
theorem sphere_intersect_aimed_at_center_witness :
    (0 : ℝ) < sampleSphere.radius ∧
    sampleSphere.radius < (Vec3.sub ⟨0, 0, 0⟩ sampleSphere.center).length ∧
    ∃ normal : Vec3,
      sampleSphere.intersect (Ray.new ⟨0, 0, 0⟩ (sampleSphere.center.sub ⟨0, 0, 0⟩))
        = some ((Vec3.sub ⟨0, 0, 0⟩ sampleSphere.center).length - sampleSphere.radius, normal) ∧
      normal.length = 1 ∧
      normal = (Ray.new ⟨0, 0, 0⟩ (sampleSphere.center.sub ⟨0, 0, 0⟩)).direction.neg ∧
      normal = (((Ray.new ⟨0, 0, 0⟩ (sampleSphere.center.sub ⟨0, 0, 0⟩)).point.add
        ((Ray.new ⟨0, 0, 0⟩ (sampleSphere.center.sub ⟨0, 0, 0⟩)).direction.scale
          ((Vec3.sub ⟨0, 0, 0⟩ sampleSphere.center).length - sampleSphere.radius))).sub
            sampleSphere.center).divScalar sampleSphere.radius :=
  have h1 : (0 : ℝ) < sampleSphere.radius := by norm_num [sampleSphere]
  ⟨h1, sampleSphere_outside,
    sphere_intersect_aimed_at_center sampleSphere ⟨0, 0, 0⟩ h1 sampleSphere_outside⟩

/-! ## Properties of `Scene::trace` -/

theorem groundPlane_intersect_rayDown :
    (Surface.plane groundPlane).intersect rayDown = some (2, ⟨0, 1, 0⟩) := by
  norm_num [Surface.intersect, Plane.intersect, groundPlane, rayDown]

theorem redPlane_intersect_rayDown :
    (Surface.plane redPlane).intersect rayDown = some (2, ⟨0, 1, 0⟩) := by
  norm_num [Surface.intersect, Plane.intersect, redPlane, rayDown]

theorem ceilingPlane_intersect_rayDown :
    (Surface.plane ceilingPlane).intersect rayDown = none := by
  norm_num [Surface.intersect, Plane.intersect, ceilingPlane, rayDown]

/-- C4: `Scene::trace` shades the nearest surface, ties going to the earliest inserted.
It returns `true` exactly when some surface's `intersect` succeeds with `t < tMax`.  When it
returns `true`, the surface `S` it shades splits the list as `pre ++ S :: post`, `S` is hit
at `t < tMax`, every surface of `pre` that is hit is hit strictly farther than `t`, and every
surface of `post` that is hit is hit at `t` or farther.  For a permutation of the list the
nearest distance found is the same, and the surface chosen differs only if two different
surfaces are hit at exactly the same `t`. -/
theorem trace_shades_nearest_first (v : Variant) (sc : Scene) (ray : Ray) (tMin tMax : EReal)
    (color : Vec3) :
    ((sc.trace v ray tMin tMax color).1 = true ↔
      ∃ obj ∈ sc.surfaces, ∃ t n, obj.intersect ray = some (t, n) ∧ (t : EReal) < tMax) ∧
    ((sc.trace v ray tMin tMax color).1 = true →
      ∃ (S : Surface) (t : ℝ) (n : Vec3) (pre post : List Surface),
        sc.closest ray tMax = ⟨some S, (t : EReal), n⟩ ∧
        sc.trace v ray tMin tMax color = (true, sc.shade v ray S t n) ∧
        sc.surfaces = pre ++ S :: post ∧
        S.intersect ray = some (t, n) ∧ (t : EReal) < tMax ∧
        (∀ x ∈ pre, ∀ t1 n1, x.intersect ray = some (t1, n1) → t < t1) ∧
        (∀ x ∈ post, ∀ t1 n1, x.intersect ray = some (t1, n1) → t ≤ t1)) ∧
    (∀ sc1 : Scene, sc1.surfaces.Perm sc.surfaces →
      (sc1.closest ray tMax).closestT = (sc.closest ray tMax).closestT ∧
      ((sc1.closest ray tMax).closestSurface ≠ (sc.closest ray tMax).closestSurface →
        ∃ a ∈ sc.surfaces, ∃ b ∈ sc.surfaces, a ≠ b ∧
          ∃ t na nb, a.intersect ray = some (t, na) ∧ b.intersect ray = some (t, nb))) := by
  refine ⟨?_, ?_, ?_⟩
  · rcases sc.closest_summary ray tMax with ⟨hno, heq⟩ | ⟨S, t, n, heq, hmem, hS, hlt, -⟩
    · rw [Scene.trace_of_closest_none v sc ray tMin tMax color (by rw [heq])]
      simp only [Bool.false_eq_true, false_iff, not_exists, not_and]
      intro obj hobj t n hhit
      exact hno obj hobj t n hhit
    · rw [Scene.trace_of_closest_some v sc ray tMin tMax color heq]
      simp only [true_iff]
      exact ⟨S, hmem, t, n, hS, hlt⟩
  · intro htrue
    rcases closest_foldl_spec ray sc.surfaces ⟨none, tMax, ⟨0, 0, 0⟩⟩ with
      ⟨-, heq⟩ | ⟨S, t, n, pre, post, heq, hl, hS, hlt, hpre, hpost⟩
    · rw [Scene.trace_of_closest_none v sc ray tMin tMax color
        (by unfold Scene.closest; rw [heq])] at htrue
      cases htrue
    · exact ⟨S, t, n, pre, post, heq,
        Scene.trace_of_closest_some v sc ray tMin tMax color heq, hl, hS, hlt, hpre, hpost⟩
  · intro sc1 hperm
    rcases sc.closest_summary ray tMax with ⟨hno, heq⟩ | ⟨S, t, n, heq, hmem, hS, hlt, hmin⟩ <;>
      rcases sc1.closest_summary ray tMax with
        ⟨hno1, heq1⟩ | ⟨S1, t1, n1, heq1, hmem1, hS1, hlt1, hmin1⟩
    · rw [heq, heq1]
      exact ⟨rfl, fun h => absurd rfl h⟩
    · exact absurd hlt1 (hno S1 (hperm.mem_iff.1 hmem1) t1 n1 hS1)
    · exact absurd hlt (hno1 S (hperm.mem_iff.2 hmem) t n hS)
    · have h1 : t ≤ t1 := hmin S1 (hperm.mem_iff.1 hmem1) t1 n1 hS1
      have h2 : t1 ≤ t := hmin1 S (hperm.mem_iff.2 hmem) t n hS
      have ht : t1 = t := le_antisymm h2 h1
      subst ht
      rw [heq, heq1]
      refine ⟨rfl, fun hne => ?_⟩
      refine ⟨S1, hperm.mem_iff.1 hmem1, S, hmem, fun h => hne (by rw [h]), t1, n1, n, hS1, hS⟩

/-- An instance of C4 with a tie: two planes at the same height are both hit at `t = 2` by
the ray going straight down; the scan keeps whichever was inserted first, and `trace`
returns `true`. -/
theorem trace_shades_nearest_first_witness :
    Scene.closest ⟨[Surface.plane groundPlane, Surface.plane redPlane], ⟨-4, 4, -3⟩⟩ rayDown ⊤
      = ⟨some (Surface.plane groundPlane), ((2 : ℝ) : EReal), ⟨0, 1, 0⟩⟩ ∧
    Scene.closest ⟨[Surface.plane redPlane, Surface.plane groundPlane], ⟨-4, 4, -3⟩⟩ rayDown ⊤
      = ⟨some (Surface.plane redPlane), ((2 : ℝ) : EReal), ⟨0, 1, 0⟩⟩ ∧
    (Scene.trace Variant.plain
      ⟨[Surface.plane groundPlane, Surface.plane redPlane], ⟨-4, 4, -3⟩⟩ rayDown
      ((0.001 : ℝ) : EReal) ⊤ ⟨0, 0, 0⟩).1 = true := by
  refine ⟨?_, ?_, ?_⟩
  · simp only [Scene.closest, List.foldl_cons, List.foldl_nil, closestStep,
      groundPlane_intersect_rayDown, redPlane_intersect_rayDown, EReal.coe_lt_top, if_true,
      lt_self_iff_false, if_false]
  · simp only [Scene.closest, List.foldl_cons, List.foldl_nil, closestStep,
      groundPlane_intersect_rayDown, redPlane_intersect_rayDown, EReal.coe_lt_top, if_true,
      lt_self_iff_false, if_false]
  · exact (trace_shades_nearest_first Variant.plain
      ⟨[Surface.plane groundPlane, Surface.plane redPlane], ⟨-4, 4, -3⟩⟩ rayDown
      ((0.001 : ℝ) : EReal) ⊤ ⟨0, 0, 0⟩).1.2
      ⟨Surface.plane groundPlane, by simp, 2, ⟨0, 1, 0⟩, groundPlane_intersect_rayDown,
        EReal.coe_lt_top 2⟩

/-- C5 fails on the code: the body of `Scene::trace` never reads `tMin`.  With the callers'
bounds `tMin = 0.001` and `tMax = +infinity`, the scene whose only surface is the plane
`y = 0.0005` and the ray from the origin along `+y`, the only intersection lies at
`t = 0.0005`, inside `(0, tMin]`, and yet `trace` returns `true`, in both programs; the
result of `trace` is the same for every `tMin`. -/
theorem trace_ignores_tMin :
    (Surface.plane nearPlane).intersect ⟨⟨0, 0, 0⟩, ⟨0, 1, 0⟩⟩ = some (0.0005, ⟨0, 1, 0⟩) ∧
    (0 : ℝ) < 0.0005 ∧ (0.0005 : ℝ) ≤ 0.001 ∧
    (∀ v color, (Scene.trace v ⟨[Surface.plane nearPlane], ⟨-4, 4, -3⟩⟩
      ⟨⟨0, 0, 0⟩, ⟨0, 1, 0⟩⟩ ((0.001 : ℝ) : EReal) ⊤ color).1 = true) ∧
    (∀ v (sc : Scene) ray tMin tMin1 tMax color,
      sc.trace v ray tMin tMax color = sc.trace v ray tMin1 tMax color) := by
  have hhit : (Surface.plane nearPlane).intersect ⟨⟨0, 0, 0⟩, ⟨0, 1, 0⟩⟩
      = some (0.0005, ⟨0, 1, 0⟩) := by
    norm_num [Surface.intersect, Plane.intersect, nearPlane]
  refine ⟨hhit, by norm_num, by norm_num, ?_, fun _ _ _ _ _ _ _ => rfl⟩
  intro v color
  have hcl : Scene.closest ⟨[Surface.plane nearPlane], ⟨-4, 4, -3⟩⟩ ⟨⟨0, 0, 0⟩, ⟨0, 1, 0⟩⟩ ⊤
      = ⟨some (Surface.plane nearPlane), ((0.0005 : ℝ) : EReal), ⟨0, 1, 0⟩⟩ := by
    simp only [Scene.closest, List.foldl_cons, List.foldl_nil, closestStep, hhit,
      EReal.coe_lt_top, if_true]
  rw [Scene.trace_of_closest_some v _ _ _ _ color hcl]

/-- C6: the shadow test of `Scene::trace` is binary and unbounded.  Let the first loop end
with surface `S`, distance `t` and normal `n`, let `p = origin + t * direction`, and let the
shadow ray be `Ray(p + 0.001 * n, normalize(lightPos - p))`, whose stored direction is
`normalize(lightPos - p)`.  If any surface of the scene, at whatever distance, makes
`intersect` succeed on the shadow ray, `trace` returns `true` with the colour
`gamma(S.material.ka)`; if none does, it returns `true` with the colour
`gamma(phongShading(p, n, S.material, lightPos, origin))`; `gamma` raises each component to
the power `1 / 2.2`. -/
theorem trace_shadow_binary (v : Variant) (sc : Scene) (ray : Ray) (tMin tMax : EReal)
    (color : Vec3) (S : Surface) (t : ℝ) (n : Vec3)
    (hS : sc.closest ray tMax = ⟨some S, (t : EReal), n⟩) :
    (Ray.new ((ray.point.add (ray.direction.scale t)).add (n.scale 0.001))
        (sc.lightPos.sub (ray.point.add (ray.direction.scale t))).normalize).point
      = (ray.point.add (ray.direction.scale t)).add (n.scale 0.001) ∧
    (Ray.new ((ray.point.add (ray.direction.scale t)).add (n.scale 0.001))
        (sc.lightPos.sub (ray.point.add (ray.direction.scale t))).normalize).direction
      = (sc.lightPos.sub (ray.point.add (ray.direction.scale t))).normalize ∧
    ((∃ obj ∈ sc.surfaces, (obj.intersect
        (Ray.new ((ray.point.add (ray.direction.scale t)).add (n.scale 0.001))
          (sc.lightPos.sub (ray.point.add (ray.direction.scale t))).normalize)).isSome = true) →
      sc.trace v ray tMin tMax color = (true, gammaCorrect S.material.ka)) ∧
    ((∀ obj ∈ sc.surfaces, obj.intersect
        (Ray.new ((ray.point.add (ray.direction.scale t)).add (n.scale 0.001))
          (sc.lightPos.sub (ray.point.add (ray.direction.scale t))).normalize) = none) →
      sc.trace v ray tMin tMax color
        = (true, gammaCorrect (phongShading v (ray.point.add (ray.direction.scale t)) n
            S.material sc.lightPos ray.point))) ∧
    (∀ c : Vec3, gammaCorrect c
      = ⟨c.x ^ ((1 : ℝ) / 2.2), c.y ^ ((1 : ℝ) / 2.2), c.z ^ ((1 : ℝ) / 2.2)⟩) := by
  refine ⟨rfl, Vec3.normalize_normalize _, ?_, ?_, fun _ => rfl⟩
  · intro h
    have hin := (sc.inShadow_eq_true_iff _).2 h
    rw [Scene.trace_of_closest_some v sc ray tMin tMax color hS]
    simp only [Scene.shade, hin, if_true]
  · intro h
    have hin : sc.inShadow (Ray.new ((ray.point.add (ray.direction.scale t)).add
        (n.scale 0.001)) (sc.lightPos.sub (ray.point.add (ray.direction.scale t))).normalize)
        = false := by
      rw [Bool.eq_false_iff]
      intro hc
      obtain ⟨obj, hobj, hsome⟩ := (sc.inShadow_eq_true_iff _).1 hc
      rw [h obj hobj] at hsome
      cases hsome
    rw [Scene.trace_of_closest_some v sc ray tMin tMax color hS]
    simp only [Scene.shade, hin, Bool.false_eq_true, if_false]

/-- An instance of C6 in which the occluder lies beyond the light: the ray going straight
down meets the ground plane `y = -2` at `t = 2`; the shadow ray towards the light at
`(-4, 4, -3)` goes on to meet the plane `y = 10`, which is above the light, so the colour is
the gamma-corrected ambient coefficient of the ground plane. -/
theorem trace_shadow_binary_witness :
    Scene.closest ⟨[Surface.plane groundPlane, Surface.plane ceilingPlane], ⟨-4, 4, -3⟩⟩
      rayDown ⊤ = ⟨some (Surface.plane groundPlane), ((2 : ℝ) : EReal), ⟨0, 1, 0⟩⟩ ∧
    Scene.trace Variant.plain
      ⟨[Surface.plane groundPlane, Surface.plane ceilingPlane], ⟨-4, 4, -3⟩⟩ rayDown
      ((0.001 : ℝ) : EReal) ⊤ ⟨0, 0, 0⟩
      = (true, gammaCorrect (Surface.plane groundPlane).material.ka) := by
  have hcl : Scene.closest
      ⟨[Surface.plane groundPlane, Surface.plane ceilingPlane], ⟨-4, 4, -3⟩⟩ rayDown ⊤
      = ⟨some (Surface.plane groundPlane), ((2 : ℝ) : EReal), ⟨0, 1, 0⟩⟩ := by
    simp only [Scene.closest, List.foldl_cons, List.foldl_nil, closestStep,
      groundPlane_intersect_rayDown, ceilingPlane_intersect_rayDown, EReal.coe_lt_top,
      if_true]
  refine ⟨hcl, (trace_shadow_binary Variant.plain _ rayDown ((0.001 : ℝ) : EReal) ⊤ ⟨0, 0, 0⟩
    _ 2 _ hcl).2.2.1 ⟨Surface.plane ceilingPlane, by simp, ?_⟩⟩
  apply Plane.intersect_isSome_of_below
  · apply Vec3.normalize_y_pos
    apply Vec3.normalize_y_pos
    norm_num [Vec3.sub, Vec3.add, Vec3.scale, rayDown]
  · norm_num [Ray.new, Vec3.add, Vec3.scale, rayDown, ceilingPlane]

/-- C7: when no surface's `intersect` succeeds with `t < tMax` (in particular for the empty
scene), `Scene::trace` returns `false` and the colour out-parameter keeps the value it had
on entry. -/
theorem trace_no_hit_keeps_color (v : Variant) (sc : Scene) (ray : Ray) (tMin tMax : EReal)
    (color : Vec3)
    (hno : ∀ obj ∈ sc.surfaces, ∀ t n, obj.intersect ray = some (t, n) →
      ¬ ((t : EReal) < tMax)) :
    sc.trace v ray tMin tMax color = (false, color) := by
  rcases sc.closest_summary ray tMax with ⟨-, heq⟩ | ⟨S, t, n, -, hmem, hS, hlt, -⟩
  · exact Scene.trace_of_closest_none v sc ray tMin tMax color (by rw [heq])
  · exact absurd hlt (hno S hmem t n hS)

/-- An instance of C7: the ray from the origin along `+x` misses the middle sphere of the
scene and runs parallel to the ground plane, so `trace` returns `false` and the colour
`(0.3, 0.6, 0.9)` passed in comes back unchanged. -/
theorem trace_no_hit_keeps_color_witness :
    Scene.trace Variant.antialiased
      ⟨[Surface.sphere sampleSphere, Surface.plane groundPlane], ⟨-4, 4, -3⟩⟩
      ⟨⟨0, 0, 0⟩, ⟨1, 0, 0⟩⟩ ((0.001 : ℝ) : EReal) ⊤ ⟨0.3, 0.6, 0.9⟩
      = (false, ⟨0.3, 0.6, 0.9⟩) := by
  apply trace_no_hit_keeps_color
  intro obj hobj t n hhit
  have hs : (Surface.sphere sampleSphere).intersect ⟨⟨0, 0, 0⟩, ⟨1, 0, 0⟩⟩ = none := by
    norm_num [Surface.intersect, Sphere.intersect, Vec3.dot, Vec3.sub, sampleSphere]
  have hp : (Surface.plane groundPlane).intersect ⟨⟨0, 0, 0⟩, ⟨1, 0, 0⟩⟩ = none := by
    norm_num [Surface.intersect, Plane.intersect]
  simp only [List.mem_cons, List.mem_singleton, List.not_mem_nil, or_false] at hobj
  rcases hobj with rfl | rfl
  · rw [hs] at hhit
    cases hhit
  · rw [hp] at hhit
    cases hhit

/-! ## Properties of `phongShading` -/

/-- C8: the `phongShading` of Q2.cpp computes the documented Phong formula.  For a unit
normal and a point distinct from the light and from the viewer, with
`lightDir = normalize(lightPos - point)`, `viewDir = normalize(viewPos - point)` and
`reflectDir = normalize(reflect(-lightDir, normal))`, the three directions are unit vectors
and the result is
`ka + kd * max(dot(normal, lightDir), 0) + ks * max(dot(viewDir, reflectDir), 0) ^ specularPower`,
the sum being returned as it is. -/
theorem phongShading_plain_formula (point normal : Vec3) (material : Material)
    (lightPos viewPos : Vec3) (hn : normal.length = 1) (hl : lightPos ≠ point)
    (hv : viewPos ≠ point) :
    Q2.phongShading point normal material lightPos viewPos
      = (material.ka.add
          (material.kd.scale (max (normal.dot (lightPos.sub point).normalize) 0))).add
          (material.ks.scale
            ((max ((viewPos.sub point).normalize.dot
              (Vec3.reflect (lightPos.sub point).normalize.neg normal).normalize) 0)
              ^ material.specularPower)) ∧
    (lightPos.sub point).normalize.length = 1 ∧
    (viewPos.sub point).normalize.length = 1 ∧
    (Vec3.reflect (lightPos.sub point).normalize.neg normal).normalize.length = 1 := by
  have hl1 := Vec3.length_normalize _ (Vec3.length_sub_pos hl)
  have hv1 := Vec3.length_normalize _ (Vec3.length_sub_pos hv)
  refine ⟨?_, hl1, hv1, ?_⟩
  · simp only [Q2.phongShading, Vec3.reflect_neg, Vec3.normalize_neg, Vec3.dot_neg_right]
  · apply Vec3.length_normalize
    rw [Vec3.length_reflect _ _ hn, Vec3.length_neg, hl1]
    exact one_pos

/-- An instance of C8: the point `(0, -2, 0)` of the ground plane under the scene's light,
seen from the origin. -/
theorem phongShading_plain_formula_witness :
    (Vec3.mk 0 1 0).length = 1 ∧ Vec3.mk (-4) 4 (-3) ≠ Vec3.mk 0 (-2) 0 ∧
    Vec3.mk 0 0 0 ≠ Vec3.mk 0 (-2) 0 ∧
    Q2.phongShading ⟨0, -2, 0⟩ ⟨0, 1, 0⟩ groundPlane.material ⟨-4, 4, -3⟩ ⟨0, 0, 0⟩
      = (groundPlane.material.ka.add
          (groundPlane.material.kd.scale
            (max ((Vec3.mk 0 1 0).dot ((Vec3.mk (-4) 4 (-3)).sub ⟨0, -2, 0⟩).normalize) 0))).add
          (groundPlane.material.ks.scale
            ((max (((Vec3.mk 0 0 0).sub ⟨0, -2, 0⟩).normalize.dot
              (Vec3.reflect ((Vec3.mk (-4) 4 (-3)).sub ⟨0, -2, 0⟩).normalize.neg
                ⟨0, 1, 0⟩).normalize) 0)
              ^ groundPlane.material.specularPower)) :=
  have h1 : (Vec3.mk 0 1 0).length = 1 := by norm_num [Vec3.length]
  have h2 : Vec3.mk (-4) 4 (-3) ≠ Vec3.mk 0 (-2) 0 := by
    intro h
    have := congrArg Vec3.x h
    norm_num at this
  have h3 : Vec3.mk 0 0 0 ≠ Vec3.mk 0 (-2) 0 := by
    intro h
    have := congrArg Vec3.y h
    norm_num at this
  ⟨h1, h2, h3,
    (phongShading_plain_formula ⟨0, -2, 0⟩ ⟨0, 1, 0⟩ groundPlane.material ⟨-4, 4, -3⟩ ⟨0, 0, 0⟩
      h1 h2 h3).1⟩

/-! ## Properties of `Camera::getRay` -/

/-- C9: for a camera at the origin with the world axes as basis, focal distance `d ≠ 0` and
resolution `nx, ny > 0`, the `Camera::getRay(i, j)` of Q2.cpp returns, for every integer
pixel, a ray whose origin is the eye and whose direction is `normalize((u_, v_, -d))` with
`u_ = l + (r - l) * (i + 0.5) / nx` and `v_ = b + (t - b) * (j + 0.5) / ny`; the vector
normalised is not the zero vector and the direction has length `1`. -/
theorem getRay_plain_valid (cam : Camera) (i j : ℤ) (heye : cam.eye = ⟨0, 0, 0⟩)
    (hu : cam.u = ⟨1, 0, 0⟩) (hv : cam.v = ⟨0, 1, 0⟩) (hw : cam.w = ⟨0, 0, 1⟩)
    (hd : cam.d ≠ 0) (hnx : 0 < cam.nx) (hny : 0 < cam.ny) :
    (cam.nx : ℝ) ≠ 0 ∧ (cam.ny : ℝ) ≠ 0 ∧
    (Q2.getRay cam i j).point = cam.eye ∧
    (Q2.getRay cam i j).direction
      = (Vec3.mk (cam.l + (cam.r - cam.l) * ((i : ℝ) + 0.5) / cam.nx)
          (cam.b + (cam.t - cam.b) * ((j : ℝ) + 0.5) / cam.ny) (-cam.d)).normalize ∧
    Vec3.mk (cam.l + (cam.r - cam.l) * ((i : ℝ) + 0.5) / cam.nx)
      (cam.b + (cam.t - cam.b) * ((j : ℝ) + 0.5) / cam.ny) (-cam.d) ≠ ⟨0, 0, 0⟩ ∧
    (Q2.getRay cam i j).direction.length = 1 := by
  have hne : Vec3.mk (cam.l + (cam.r - cam.l) * ((i : ℝ) + 0.5) / cam.nx)
      (cam.b + (cam.t - cam.b) * ((j : ℝ) + 0.5) / cam.ny) (-cam.d) ≠ ⟨0, 0, 0⟩ := by
    intro h
    have := congrArg Vec3.z h
    exact hd (neg_eq_zero.1 this)
  have hdir : (Q2.getRay cam i j).direction
      = (Vec3.mk (cam.l + (cam.r - cam.l) * ((i : ℝ) + 0.5) / cam.nx)
          (cam.b + (cam.t - cam.b) * ((j : ℝ) + 0.5) / cam.ny) (-cam.d)).normalize := by
    simp only [Q2.getRay, Ray.new, Camera.u_, Camera.v_, Vec3.normalize_normalize,
      Camera.direction_of_axes cam _ _ heye hu hv hw]
  refine ⟨by exact_mod_cast hnx.ne.symm, by exact_mod_cast hny.ne.symm, rfl, hdir, hne, ?_⟩
  rw [hdir]
  exact Vec3.length_normalize _ (Vec3.length_pos_of_ne_zero hne)

/-- An instance of C9: the camera of `render()` at 512 x 512 and the pixel `(255, 255)`. -/
theorem getRay_plain_valid_witness :
    (Q2.getRay (Q2.Camera.new (-0.1) 0.1 (-0.1) 0.1 0.1 512 512) 255 255).point = ⟨0, 0, 0⟩ ∧
    (Q2.getRay (Q2.Camera.new (-0.1) 0.1 (-0.1) 0.1 0.1 512 512) 255 255).direction.length
      = 1 :=
  have h := getRay_plain_valid (Q2.Camera.new (-0.1) 0.1 (-0.1) 0.1 0.1 512 512) 255 255
    rfl rfl rfl rfl (by norm_num [Q2.Camera.new]) (by decide) (by decide)
  ⟨h.2.2.1, h.2.2.2.2.2⟩

/-- C10, a defect of the code: the `getRay` of Main_EmptyViewer.cpp adds `0.5` to
coordinates that `Antialiasing` has already moved by a jitter in `[0, 1)`.  For every camera
and every real `(i, j)` the ray starts at the eye and has the direction
`normalize(eye + u * u_ + v * v_ - w * d)` with `u_ = l + (r - l) * (i + 0.5) / nx` and
`v_ = b + (t - b) * (j + 0.5) / ny`.  With the camera of `render()` at 512 x 512, the sample
`(511 + 0.75, 0 + 0.75)` that `Antialiasing` traces for pixel `(511, 0)` has
`u_ = 0.10009765625`: this is not the `0.09990234375` of the formula without the offset, it
is not inside the pixel's footprint `[0.099609375, 0.1)`, and it lies beyond the right edge
`r = 0.1` of the image plane. -/
theorem getRay_aa_sample_leaves_pixel :
    (∀ (cam : Camera) (i j : ℝ), (AA.getRay cam i j).point = cam.eye ∧
      (AA.getRay cam i j).direction
        = (((cam.eye.add (cam.u.scale (cam.l + (cam.r - cam.l) * (i + 0.5) / cam.nx))).add
            (cam.v.scale (cam.b + (cam.t - cam.b) * (j + 0.5) / cam.ny))).sub
              (cam.w.scale cam.d)).normalize) ∧
    (∀ (eye : Vec3) (scene : Scene),
      AA.traceSample 511 0 (AA.Camera.new eye (-0.1) 0.1 (-0.1) 0.1 0.1 512 512) scene
          (0.75, 0.75)
        = scene.trace Variant.antialiased
            (AA.getRay (AA.Camera.new eye (-0.1) 0.1 (-0.1) 0.1 0.1 512 512)
              (((511 : ℤ) : ℝ) + 0.75) (((0 : ℤ) : ℝ) + 0.75))
            ((0.001 : ℝ) : EReal) ⊤ ⟨0, 0, 0⟩) ∧
    (∀ eye : Vec3,
      (AA.Camera.new eye (-0.1) 0.1 (-0.1) 0.1 0.1 512 512).u_ (((511 : ℤ) : ℝ) + 0.75)
        = 0.10009765625 ∧
      (AA.Camera.new eye (-0.1) 0.1 (-0.1) 0.1 0.1 512 512).l
          + ((AA.Camera.new eye (-0.1) 0.1 (-0.1) 0.1 0.1 512 512).r
            - (AA.Camera.new eye (-0.1) 0.1 (-0.1) 0.1 0.1 512 512).l)
            * (((511 : ℤ) : ℝ) + 0.75)
              / (AA.Camera.new eye (-0.1) 0.1 (-0.1) 0.1 0.1 512 512).nx
        = 0.09990234375 ∧
      (AA.Camera.new eye (-0.1) 0.1 (-0.1) 0.1 0.1 512 512).l
          + ((AA.Camera.new eye (-0.1) 0.1 (-0.1) 0.1 0.1 512 512).r
            - (AA.Camera.new eye (-0.1) 0.1 (-0.1) 0.1 0.1 512 512).l)
            * (((511 : ℤ) : ℝ) + 1)
              / (AA.Camera.new eye (-0.1) 0.1 (-0.1) 0.1 0.1 512 512).nx
        = (AA.Camera.new eye (-0.1) 0.1 (-0.1) 0.1 0.1 512 512).r ∧
      (AA.Camera.new eye (-0.1) 0.1 (-0.1) 0.1 0.1 512 512).r
        < (AA.Camera.new eye (-0.1) 0.1 (-0.1) 0.1 0.1 512 512).u_
            (((511 : ℤ) : ℝ) + 0.75)) := by
  refine ⟨fun cam i j => ⟨rfl, ?_⟩, fun _ _ => rfl, fun eye => ?_⟩
  · simp only [AA.getRay, Ray.new, Vec3.normalize_normalize, Camera.u_, Camera.v_]
  · refine ⟨?_, ?_, ?_, ?_⟩ <;> norm_num [Camera.u_, AA.Camera.new]

/-! ## Properties of the renderers -/

/-- C11: the `render()` of Q2.cpp fills a row-major buffer, one sample per pixel.  For
`Width >= 0` and `Height >= 0` it leaves `Width` and `Height` as they are and a vector of
exactly `Width * Height * 3` entries; for every pixel `(x, y)` of the image the entries at
`(y * Width + x) * 3`, `+ 1` and `+ 2` are the colour that `scene.trace` returns for
`camera.getRay(x, y)` when it reports a hit, and `0, 0, 0` when it reports none. -/
theorem render_plain_row_major (g : Globals) (hW : 0 ≤ g.Width) (hH : 0 ≤ g.Height) :
    (Q2.render g).Width = g.Width ∧ (Q2.render g).Height = g.Height ∧
    ((Q2.render g).OutputImage.length : ℤ) = g.Width * g.Height * 3 ∧
    ∀ x y : ℤ, 0 ≤ x → x < g.Width → 0 ≤ y → y < g.Height →
      ∀ r : Bool × Vec3,
        r = renderScene.trace Variant.plain
          (Q2.getRay (Q2.Camera.new (-0.1) 0.1 (-0.1) 0.1 0.1 g.Width g.Height) x y)
          ((0.001 : ℝ) : EReal) ⊤ ⟨0, 0, 0⟩ →
        (r.1 = true →
          (Q2.render g).OutputImage[((y * g.Width + x) * 3).toNat]? = some r.2.x ∧
          (Q2.render g).OutputImage[((y * g.Width + x) * 3 + 1).toNat]? = some r.2.y ∧
          (Q2.render g).OutputImage[((y * g.Width + x) * 3 + 2).toNat]? = some r.2.z) ∧
        (r.1 = false →
          (Q2.render g).OutputImage[((y * g.Width + x) * 3).toNat]? = some 0 ∧
          (Q2.render g).OutputImage[((y * g.Width + x) * 3 + 1).toNat]? = some 0 ∧
          (Q2.render g).OutputImage[((y * g.Width + x) * 3 + 2).toNat]? = some 0) := by
  obtain ⟨w, hw⟩ := Int.eq_ofNat_of_zero_le hW
  obtain ⟨h, hh⟩ := Int.eq_ofNat_of_zero_le hH
  obtain ⟨hlen, hget⟩ := Q2.render_entries g w h hw hh
  refine ⟨rfl, rfl, ?_, ?_⟩
  · rw [hlen, hw, hh]
    push_cast
    ring
  · intro x y hx0 hx hy0 hy r hr
    obtain ⟨xn, rfl⟩ := Int.eq_ofNat_of_zero_le hx0
    obtain ⟨yn, rfl⟩ := Int.eq_ofNat_of_zero_le hy0
    have hxn : xn < w := by rw [hw] at hx; exact_mod_cast hx
    have hyn : yn < h := by rw [hh] at hy; exact_mod_cast hy
    have h0 := hget xn hxn yn hyn 0 (by norm_num)
    have h1 := hget xn hxn yn hyn 1 (by norm_num)
    have h2 := hget xn hxn yn hyn 2 (by norm_num)
    have i0 : (((yn : ℤ) * g.Width + xn) * 3).toNat = 3 * w * yn + (3 * xn + 0) := by
      rw [hw]
      have : ((yn : ℤ) * (w : ℤ) + xn) * 3 = ((3 * w * yn + (3 * xn + 0) : ℕ) : ℤ) := by
        push_cast
        ring
      rw [this, Int.toNat_ofNat]
    have i1 : (((yn : ℤ) * g.Width + xn) * 3 + 1).toNat = 3 * w * yn + (3 * xn + 1) := by
      rw [hw]
      have : ((yn : ℤ) * (w : ℤ) + xn) * 3 + 1 = ((3 * w * yn + (3 * xn + 1) : ℕ) : ℤ) := by
        push_cast
        ring
      rw [this, Int.toNat_ofNat]
    have i2 : (((yn : ℤ) * g.Width + xn) * 3 + 2).toNat = 3 * w * yn + (3 * xn + 2) := by
      rw [hw]
      have : ((yn : ℤ) * (w : ℤ) + xn) * 3 + 2 = ((3 * w * yn + (3 * xn + 2) : ℕ) : ℤ) := by
        push_cast
        ring
      rw [this, Int.toNat_ofNat]
    rw [i0, i1, i2, h0, h1, h2]
    constructor
    · intro ht
      rw [hr] at ht
      simp [Q2.renderPixel, ht, hr]
    · intro hf
      rw [hr] at hf
      simp [Q2.renderPixel, hf]

/-- An instance of C11: rendering at the initial size 512 x 512 leaves `512 * 512 * 3`
entries. -/
theorem render_plain_row_major_witness :
    ((Q2.render Globals.initial).OutputImage.length : ℤ) = 512 * 512 * 3 :=
  (render_plain_row_major Globals.initial (by decide) (by decide)).2.2.1

/-- C14: `Sphere::intersect` tests the near root only.  For a sphere of positive radius and
a unit-direction ray whose origin is strictly inside it, the call fails, although the
discriminant is non-negative and the far root `(-b + sqrt(disc)) / (2a)` is positive and is
the parameter of a point of the ray on the sphere. -/
theorem sphere_intersect_from_inside (s : Sphere) (ray : Ray)
    (hr : 0 < s.radius) (hd : ray.direction.length = 1)
    (hin : (ray.point.sub s.center).length < s.radius) :
    s.intersect ray = none ∧
    0 ≤ (2 * (ray.point.sub s.center).dot ray.direction)
          * (2 * (ray.point.sub s.center).dot ray.direction)
        - 4 * ray.direction.dot ray.direction
          * ((ray.point.sub s.center).dot (ray.point.sub s.center) - s.radius * s.radius) ∧
    0 < (-(2 * (ray.point.sub s.center).dot ray.direction)
        + Real.sqrt ((2 * (ray.point.sub s.center).dot ray.direction)
          * (2 * (ray.point.sub s.center).dot ray.direction)
        - 4 * ray.direction.dot ray.direction
          * ((ray.point.sub s.center).dot (ray.point.sub s.center)
            - s.radius * s.radius))) / (2 * ray.direction.dot ray.direction) ∧
    ((ray.point.add (ray.direction.scale
      ((-(2 * (ray.point.sub s.center).dot ray.direction)
        + Real.sqrt ((2 * (ray.point.sub s.center).dot ray.direction)
          * (2 * (ray.point.sub s.center).dot ray.direction)
        - 4 * ray.direction.dot ray.direction
          * ((ray.point.sub s.center).dot (ray.point.sub s.center)
            - s.radius * s.radius))) / (2 * ray.direction.dot ray.direction)))).sub
        s.center).length = s.radius := by
  have hdd := Vec3.dot_self_of_length_eq_one hd
  have hc : (ray.point.sub s.center).dot (ray.point.sub s.center)
      - s.radius * s.radius < 0 := by
    have h1 := Vec3.length_mul_self (ray.point.sub s.center)
    have h2 := Vec3.length_nonneg (ray.point.sub s.center)
    nlinarith
  have hon := on_sphere_iff ray.point ray.direction s.center hr hdd
  rw [Sphere.intersect_of_unit s ray hdd, hdd]
  simp only [hon, mul_one]
  generalize 2 * (ray.point.sub s.center).dot ray.direction = b at *
  generalize (ray.point.sub s.center).dot (ray.point.sub s.center)
    - s.radius * s.radius = c at *
  have hdisc : 0 ≤ b * b - 4 * c := by nlinarith [mul_self_nonneg b]
  have hs := Real.mul_self_sqrt hdisc
  have hs0 := Real.sqrt_nonneg (b * b - 4 * c)
  have hgt : |b| < Real.sqrt (b * b - 4 * c) := by
    apply abs_lt_of_sq_lt_sq _ hs0
    nlinarith
  have hb := abs_lt.1 hgt
  have hnear : ¬ ((-b - Real.sqrt (b * b - 4 * c)) / 2 > 0) := by
    intro h
    linarith
  refine ⟨?_, hdisc, by linarith, ?_⟩
  · rw [if_neg (not_lt.2 hdisc), if_neg hnear]
  · nlinarith

/-- An instance of C14: a ray that starts at the centre of the middle sphere of the scene
is not reported as a hit. -/
theorem sphere_intersect_from_inside_witness :
    (0 : ℝ) < sampleSphere.radius ∧ (Vec3.mk 0 0 (-1)).length = 1 ∧
    (Vec3.sub ⟨0, 0, -7⟩ sampleSphere.center).length < sampleSphere.radius ∧
    sampleSphere.intersect ⟨⟨0, 0, -7⟩, ⟨0, 0, -1⟩⟩ = none :=
  have h1 : (0 : ℝ) < sampleSphere.radius := by norm_num [sampleSphere]
  have h2 : (Vec3.mk 0 0 (-1)).length = 1 := by norm_num [Vec3.length]
  have h3 : (Vec3.sub ⟨0, 0, -7⟩ sampleSphere.center).length < sampleSphere.radius := by
    norm_num [Vec3.length, Vec3.sub, sampleSphere]
  ⟨h1, h2, h3, (sphere_intersect_from_inside sampleSphere ⟨⟨0, 0, -7⟩, ⟨0, 0, -1⟩⟩ h1 h2 h3).1⟩

/-- C15 fails on the code: there are no point, unit normal, material with `ks != 0`, light
position and view position at which the two `phongShading` functions return different
colours. -/
theorem phongShading_variants_differ_counterexample :
    ¬ ∃ (point normal : Vec3) (material : Material) (lightPos viewPos : Vec3),
      normal.length = 1 ∧ material.ks ≠ ⟨0, 0, 0⟩ ∧
      Q2.phongShading point normal material lightPos viewPos
        ≠ AA.phongShading point normal material lightPos viewPos := by
  rintro ⟨point, normal, material, lightPos, viewPos, -, -, hne⟩
  exact hne (phongShading_Q2_eq_AA point normal material lightPos viewPos)

/-- C15 as amended: the two `phongShading` functions agree.  With
`lightDir = normalize(lightPos - point)` and `viewDir = normalize(viewPos - point)`, the
`reflectDir` of Main_EmptyViewer.cpp, `normalize(reflect(-lightDir, normal))`, is the
negation of the `reflectDir` of Q2.cpp, `normalize(lightDir - normal * (2 * dot(normal,
lightDir)))`, so `dot(viewDir, reflectDir)` of the one is `-viewDir.dot(reflectDir)` of the
other, and the two functions, and with them the two `Scene::trace`, return the same
colour at every input. -/
theorem phongShading_variants_agree (point normal : Vec3) (material : Material)
    (lightPos viewPos : Vec3) :
    (Vec3.reflect (lightPos.sub point).normalize.neg normal).normalize
      = ((lightPos.sub point).normalize.sub
          (normal.scale (2 * normal.dot (lightPos.sub point).normalize))).normalize.neg ∧
    (viewPos.sub point).normalize.dot
        (Vec3.reflect (lightPos.sub point).normalize.neg normal).normalize
      = -((viewPos.sub point).normalize.dot
          ((lightPos.sub point).normalize.sub
            (normal.scale (2 * normal.dot (lightPos.sub point).normalize))).normalize) ∧
    Q2.phongShading point normal material lightPos viewPos
      = AA.phongShading point normal material lightPos viewPos ∧
    (∀ (sc : Scene) (ray : Ray) (tMin tMax : EReal) (color : Vec3),
      sc.trace Variant.plain ray tMin tMax color
        = sc.trace Variant.antialiased ray tMin tMax color) := by
  refine ⟨?_, ?_, phongShading_Q2_eq_AA point normal material lightPos viewPos, ?_⟩
  · rw [Vec3.reflect_neg, Vec3.normalize_neg]
  · rw [Vec3.reflect_neg, Vec3.normalize_neg, Vec3.dot_neg_right]
  · intro sc ray tMin tMax color
    have h : phongShading Variant.plain = phongShading Variant.antialiased := by
      funext p n m l w
      exact phongShading_Q2_eq_AA p n m l w
    simp only [Scene.trace, Scene.shade, h]

/-- C16: the gamma step of `Scene::trace` raises each colour component to the power
`1 / 2.2` and does not clamp.  The colour that `trace` gives a hit is `gammaCorrect` of the
ambient or Phong colour; `gammaCorrect` acts component by component; a component above `1`
stays above `1`; the value `1` is mapped to `1`, and `0.5` to a value within `0.0001` of
`0.7297`. -/
theorem gamma_step_values :
    (∀ (v : Variant) (sc : Scene) (ray : Ray) (S : Surface) (t : ℝ) (n : Vec3),
      sc.shade v ray S t n
        = gammaCorrect
            (if sc.inShadow (Ray.new ((ray.point.add (ray.direction.scale t)).add
                (n.scale 0.001))
                (sc.lightPos.sub (ray.point.add (ray.direction.scale t))).normalize) = true
              then S.material.ka
              else phongShading v (ray.point.add (ray.direction.scale t)) n S.material
                sc.lightPos ray.point)) ∧
    (∀ c : Vec3, gammaCorrect c
      = ⟨c.x ^ ((1 : ℝ) / 2.2), c.y ^ ((1 : ℝ) / 2.2), c.z ^ ((1 : ℝ) / 2.2)⟩) ∧
    (∀ c : ℝ, 1 < c → 1 < c ^ ((1 : ℝ) / 2.2)) ∧
    (1 : ℝ) ^ ((1 : ℝ) / 2.2) = 1 ∧
    |(0.5 : ℝ) ^ ((1 : ℝ) / 2.2) - 0.7297| < 0.0001 ∧
    gammaCorrect ⟨1, 1, 1⟩ = ⟨1, 1, 1⟩ := by
  refine ⟨fun _ _ _ _ _ _ => rfl, fun _ => rfl,
    fun c hc => Real.one_lt_rpow hc (by norm_num), Real.one_rpow _, ?_, ?_⟩
  · obtain ⟨h1, h2⟩ := half_rpow_gamma_bounds
    rw [abs_lt]
    constructor <;> linarith
  · simp [gammaCorrect]

/-! ## Shadow rays and colour bounds -/

/-- C17: the offset of `0.001` along the normal keeps a lit surface from shadowing itself.
(a) For a sphere of radius `r > 0`, a point `p` on it with outward normal
`n = (p - center) / r` and a light `L != p` with `dot(n, L - p) >= 0`, the sphere's own
`intersect` fails on the shadow ray `Ray(p + 0.001 * n, normalize(L - p))`.  (b) For a plane
`y = h`, a point `p` on it and a light with `L.y > h`, the plane's own `intersect` fails on
the shadow ray `Ray(p + 0.001 * (0, 1, 0), normalize(L - p))`. -/
theorem shadow_offset_no_self_hit :
    (∀ (s : Sphere) (p L : Vec3), 0 < s.radius → (p.sub s.center).length = s.radius →
      L ≠ p → 0 ≤ ((p.sub s.center).divScalar s.radius).dot (L.sub p) →
      s.intersect (Ray.new (p.add (((p.sub s.center).divScalar s.radius).scale 0.001))
        (L.sub p).normalize) = none) ∧
    (∀ (pl : Plane) (p L : Vec3), p.y = pl.y → pl.y < L.y →
      pl.intersect (Ray.new (p.add (Vec3.scale ⟨0, 1, 0⟩ 0.001)) (L.sub p).normalize)
        = none) := by
  constructor
  · intro s p L hr _ hL hdot
    have hlen := Vec3.length_sub_pos hL
    apply Sphere.intersect_none_of_heading_away
    · show (L.sub p).normalize.normalize.dot (L.sub p).normalize.normalize = 1
      rw [Vec3.normalize_normalize]
      exact Vec3.dot_self_normalize _ hlen
    · show 0 ≤ ((p.add (((p.sub s.center).divScalar s.radius).scale 0.001)).sub s.center).dot
        (L.sub p).normalize.normalize
      rw [Vec3.normalize_normalize, Vec3.normalize_eq_divScalar, Vec3.dot_divScalar_right]
      apply div_nonneg _ hlen.le
      have h1 : (p.sub s.center).dot (L.sub p)
          = s.radius * ((p.sub s.center).divScalar s.radius).dot (L.sub p) := by
        rw [Vec3.dot_divScalar_left]
        field_simp
      have h2 : ((p.add (((p.sub s.center).divScalar s.radius).scale 0.001)).sub
          s.center).dot (L.sub p)
          = (p.sub s.center).dot (L.sub p)
            + 0.001 * ((p.sub s.center).divScalar s.radius).dot (L.sub p) := by
        simp only [Vec3.dot, Vec3.add, Vec3.sub, Vec3.scale, Vec3.divScalar]
        ring
      rw [h2, h1]
      nlinarith
  · intro pl p L hp hL
    apply Plane.intersect_none_of_above
    · apply Vec3.normalize_y_pos
      apply Vec3.normalize_y_pos
      show 0 < L.y - p.y
      linarith
    · show pl.y < p.y + 1 * 0.001
      linarith

/-- An instance of C17: the top of the middle sphere of the scene, `(0, 2, -7)`, and the
point `(0, -2, 0)` of the ground plane, each under the scene's light at `(-4, 4, -3)`. -/
theorem shadow_offset_no_self_hit_witness :
    sampleSphere.intersect
      (Ray.new (Vec3.add ⟨0, 2, -7⟩
        (((Vec3.sub ⟨0, 2, -7⟩ sampleSphere.center).divScalar sampleSphere.radius).scale 0.001))
        (Vec3.sub ⟨-4, 4, -3⟩ ⟨0, 2, -7⟩).normalize) = none ∧
    groundPlane.intersect
      (Ray.new (Vec3.add ⟨0, -2, 0⟩ (Vec3.scale ⟨0, 1, 0⟩ 0.001))
        (Vec3.sub ⟨-4, 4, -3⟩ ⟨0, -2, 0⟩).normalize) = none := by
  refine ⟨shadow_offset_no_self_hit.1 sampleSphere ⟨0, 2, -7⟩ ⟨-4, 4, -3⟩ ?_ ?_ ?_ ?_,
    shadow_offset_no_self_hit.2 groundPlane ⟨0, -2, 0⟩ ⟨-4, 4, -3⟩ rfl ?_⟩
  · norm_num [sampleSphere]
  · rw [Vec3.length_eq_iff _ (by norm_num [sampleSphere])]
    norm_num [Vec3.dot, Vec3.sub, sampleSphere]
  · intro h
    have := congrArg Vec3.x h
    norm_num at this
  · norm_num [Vec3.dot, Vec3.sub, Vec3.divScalar, sampleSphere]
  · norm_num [groundPlane]

/-- C18: `phongShading` is bounded by the material's coefficients, in both programs.  For a
material with component-wise non-negative `ka`, `kd`, `ks` and `specularPower >= 0`, a unit
normal and a point distinct from the light and from the viewer, the result `r` satisfies
`ka <= r <= ka + kd + ks` in every component; so no component of the gamma-corrected colour
is negative, and one can exceed `1` only if `ka + kd + ks > 1` in that channel. -/
theorem phongShading_bounded (v : Variant) (point normal : Vec3) (material : Material)
    (lightPos viewPos : Vec3) (hka : Vec3.le ⟨0, 0, 0⟩ material.ka)
    (hkd : Vec3.le ⟨0, 0, 0⟩ material.kd) (hks : Vec3.le ⟨0, 0, 0⟩ material.ks)
    (hsp : 0 ≤ material.specularPower) (hn : normal.length = 1) (hl : lightPos ≠ point)
    (hv : viewPos ≠ point) :
    Vec3.le material.ka (phongShading v point normal material lightPos viewPos) ∧
    Vec3.le (phongShading v point normal material lightPos viewPos)
      ((material.ka.add material.kd).add material.ks) ∧
    Vec3.le ⟨0, 0, 0⟩ (gammaCorrect (phongShading v point normal material lightPos viewPos)) ∧
    (1 < (gammaCorrect (phongShading v point normal material lightPos viewPos)).x →
      1 < material.ka.x + material.kd.x + material.ks.x) ∧
    (1 < (gammaCorrect (phongShading v point normal material lightPos viewPos)).y →
      1 < material.ka.y + material.kd.y + material.ks.y) ∧
    (1 < (gammaCorrect (phongShading v point normal material lightPos viewPos)).z →
      1 < material.ka.z + material.kd.z + material.ks.z) := by
  have hAA : phongShading v point normal material lightPos viewPos
      = AA.phongShading point normal material lightPos viewPos := by
    cases v
    · exact phongShading_Q2_eq_AA point normal material lightPos viewPos
    · rfl
  obtain ⟨hd0, hd1, hs0, hs1⟩ :=
    phong_factor_bounds point normal lightPos viewPos material.specularPower hsp hn hl hv
  have hx := phong_component_bounds material.ka.x hkd.1 hks.1 hd0 hd1 hs0 hs1
  have hy := phong_component_bounds material.ka.y hkd.2.1 hks.2.1 hd0 hd1 hs0 hs1
  have hz := phong_component_bounds material.ka.z hkd.2.2 hks.2.2 hd0 hd1 hs0 hs1
  have hgam : ∀ c k : ℝ, 0 ≤ c → c ≤ k → 1 < c ^ ((1 : ℝ) / 2.2) → 1 < k := by
    intro c k hc hck hgt
    by_contra hk
    exact absurd hgt (not_lt.2 (Real.rpow_le_one hc (by linarith) (by norm_num)))
  rw [hAA]
  simp only [AA.phongShading, Vec3.le, Vec3.add, Vec3.scale, gammaCorrect]
  have hka' : (0 : ℝ) ≤ material.ka.x ∧ (0 : ℝ) ≤ material.ka.y ∧ (0 : ℝ) ≤ material.ka.z := hka
  refine ⟨⟨hx.1, hy.1, hz.1⟩, ⟨hx.2, hy.2, hz.2⟩,
    ⟨Real.rpow_nonneg (le_trans hka'.1 hx.1) _, Real.rpow_nonneg (le_trans hka'.2.1 hy.1) _,
      Real.rpow_nonneg (le_trans hka'.2.2 hz.1) _⟩,
    hgam _ _ (le_trans hka'.1 hx.1) hx.2, hgam _ _ (le_trans hka'.2.1 hy.1) hy.2,
    hgam _ _ (le_trans hka'.2.2 hz.1) hz.2⟩

/-- An instance of C18: the point `(0, -2, 0)` of the ground plane, whose material has
`ka = (0.2, 0.2, 0.2)`, `kd = (1, 1, 1)` and `ks = (0, 0, 0)`, under the scene's light and
seen from the origin, in the plain program. -/
theorem phongShading_bounded_witness :
    Vec3.le groundPlane.material.ka
      (phongShading Variant.plain ⟨0, -2, 0⟩ ⟨0, 1, 0⟩ groundPlane.material ⟨-4, 4, -3⟩
        ⟨0, 0, 0⟩) ∧
    Vec3.le
      (phongShading Variant.plain ⟨0, -2, 0⟩ ⟨0, 1, 0⟩ groundPlane.material ⟨-4, 4, -3⟩
        ⟨0, 0, 0⟩)
      ((groundPlane.material.ka.add groundPlane.material.kd).add groundPlane.material.ks) :=
  have h := phongShading_bounded Variant.plain ⟨0, -2, 0⟩ ⟨0, 1, 0⟩ groundPlane.material
    ⟨-4, 4, -3⟩ ⟨0, 0, 0⟩ (by norm_num [Vec3.le, groundPlane])
    (by norm_num [Vec3.le, groundPlane]) (by norm_num [Vec3.le, groundPlane])
    (by norm_num [groundPlane]) (by norm_num [Vec3.length])
    (by
      intro h
      have := congrArg Vec3.x h
      norm_num at this)
    (by
      intro h
      have := congrArg Vec3.y h
      norm_num at this)
  ⟨h.1, h.2.1⟩

end RayTracer

end
